import Mathlib

/-!
Shallow embedding of the `sortcensus` census-processing program
(`threadpool.cpp`, `threadpool.h`).

The C++ `Data*` pointer graph is embedded as an arena: a `List Data` in which
a node's identity is its index and the C++ null/non-null `parent` pointer
becomes an `Option Nat` index into the same arena.  The external Regina
triangulation engine is abstracted as a record of oracles (`Engine`): the
program only ever consumes its answers (parse success, simplification,
move legality / resulting signatures, invariant values).
-/

namespace SortCensus

/-- Complexity proxy of a signature: its first character minus `'a'`,
exactly the C++ expression `s[0] - 'a'` (as a signed integer). -/
def proxy (s : String) : Int :=
  match s.data with
  | [] => 0
  | c :: _ => (c.toNat : Int) - 97

/-- Embedding of `struct Data` from `threadpool.cpp`.  `parent`, `minimal`
are arena indices; `parent = none` is the C++ null pointer. -/
structure Data where
  sig : String
  parent : Option Nat
  depth : Int
  smallest : Int
  minimal : Nat
deriving Repr, DecidableEq

/-- The `Data(const std::string& from)` constructor: no parent, depth 0,
`smallest = sig[0] - 'a'`, `minimal = this` (the node's own index). -/
def mkData (s : String) (selfIdx : Nat) : Data :=
  { sig := s, parent := none, depth := 0, smallest := proxy s, minimal := selfIdx }

/-- An arena of union-find nodes (the set of all `Data` objects ever
allocated for one `Graph`). -/
abbrev Arena := List Data

/-- Parent pointer of node `i` (none for out-of-range indices). -/
def parentO (s : Arena) (i : Nat) : Option Nat :=
  match s.get? i with
  | some d => d.parent
  | none => none

/-- One step of parent-chasing: move to the parent, or stay put at a root. -/
def stepP (s : Arena) (i : Nat) : Nat :=
  (parentO s i).getD i

/-- The root computed by following parent pointers, as in `Data::root()` and
the loop at the start of the free function `root`: with a well-formed forest,
`s.length` iterations always suffice to reach the parentless ancestor. -/
def rootD (s : Arena) (i : Nat) : Nat :=
  (stepP s)^[s.length] i

/-- Every parent pointer stays inside the arena. -/
def InRange (s : Arena) : Prop :=
  ∀ i p, parentO s i = some p → p < s.length

/-- Node `i`'s parent chain eventually reaches a parentless node. -/
def Reaches (s : Arena) (i : Nat) : Prop :=
  ∃ k, parentO s ((stepP s)^[k] i) = none

/-- Well-formed forest: in-range parents and every node reaches a root. -/
def WF (s : Arena) : Prop :=
  InRange s ∧ ∀ i, i < s.length → Reaches s i

theorem parentO_none_of_ge (s : Arena) (i : Nat) (h : s.length ≤ i) :
    parentO s i = none := by
  unfold parentO
  rw [List.get?_eq_none.2 h]

theorem stepP_eq_self (s : Arena) (i : Nat) (h : parentO s i = none) :
    stepP s i = i := by
  simp [stepP, h]

theorem iterate_fix_of_parentO_none (s : Arena) (i : Nat)
    (h : parentO s i = none) : ∀ k, (stepP s)^[k] i = i := by
  intro k
  induction k with
  | zero => rfl
  | succ k ih =>
      rw [Function.iterate_succ_apply, stepP_eq_self s i h, ih]

theorem reaches_of_ge (s : Arena) (i : Nat) (h : s.length ≤ i) :
    Reaches s i :=
  ⟨0, by simpa using parentO_none_of_ge s i h⟩

theorem reaches_all (s : Arena) (h : WF s) (i : Nat) : Reaches s i := by
  by_cases hi : i < s.length
  · exact h.2 i hi
  · exact reaches_of_ge s i (le_of_not_lt hi)

theorem stepP_lt (s : Arena) (hR : InRange s) (i : Nat) (hi : i < s.length) :
    stepP s i < s.length := by
  unfold stepP
  cases hp : parentO s i with
  | none => simpa using hi
  | some p => simpa using hR i p hp

theorem iterate_lt (s : Arena) (hR : InRange s) (i : Nat) (hi : i < s.length) :
    ∀ k, (stepP s)^[k] i < s.length := by
  intro k
  induction k with
  | zero => simpa using hi
  | succ k ih =>
      rw [Function.iterate_succ_apply']
      exact stepP_lt s hR _ ih

theorem iterate_stab (s : Arena) (i : Nat) {K m : Nat}
    (hK : parentO s ((stepP s)^[K] i) = none) (hm : K ≤ m) :
    (stepP s)^[m] i = (stepP s)^[K] i := by
  obtain ⟨t, rfl⟩ := Nat.exists_eq_add_of_le hm
  rw [Nat.add_comm, Function.iterate_add_apply]
  exact iterate_fix_of_parentO_none s _ hK t

/-- Iterates of the parent-chasing step before the first root are pairwise
distinct: otherwise the root would be reached strictly earlier. -/
theorem iterate_distinct (s : Arena) (i : Nat) (hr : Reaches s i)
    {a b : Nat} (hab : a < b) (hbK : b ≤ Nat.find hr) :
    (stepP s)^[a] i ≠ (stepP s)^[b] i := by
  intro heq
  have hK : parentO s ((stepP s)^[Nat.find hr] i) = none := Nat.find_spec hr
  have h1 : (stepP s)^[Nat.find hr - b + a] i =
      (stepP s)^[Nat.find hr - b + b] i := by
    rw [Function.iterate_add_apply, Function.iterate_add_apply, heq]
  have h2 : Nat.find hr - b + b = Nat.find hr := Nat.sub_add_cancel hbK
  have h3 : parentO s ((stepP s)^[Nat.find hr - b + a] i) = none := by
    rw [h1, h2]; exact hK
  have h4 : Nat.find hr - b + a < Nat.find hr := by omega
  exact Nat.find_min hr h4 h3

/-- The number of steps to the root is smaller than the arena size
(pigeonhole over the distinct iterates). -/
theorem find_lt_length (s : Arena) (hR : InRange s) (i : Nat)
    (hi : i < s.length) (hr : Reaches s i) : Nat.find hr < s.length := by
  by_contra hge
  push_neg at hge
  have hinj : Function.Injective
      (fun t : Fin (Nat.find hr + 1) =>
        (⟨(stepP s)^[t.1] i, iterate_lt s hR i hi t.1⟩ : Fin s.length)) := by
    intro a b hab
    simp only [Fin.mk.injEq] at hab
    by_contra hne
    rcases Nat.lt_or_ge a.1 b.1 with h | h
    · exact iterate_distinct s i hr h (Nat.lt_succ_iff.1 b.2) hab
    · rcases Nat.lt_or_ge b.1 a.1 with h' | h'
      · exact iterate_distinct s i hr h' (Nat.lt_succ_iff.1 a.2) hab.symm
      · exact hne (Fin.ext (Nat.le_antisymm h' h))
  have hcard := Fintype.card_le_of_injective _ hinj
  simp only [Fintype.card_fin] at hcard
  omega

/-- Under well-formedness, `rootD` indeed lands on a parentless node. -/
theorem rootD_parent_none (s : Arena) (h : WF s) (i : Nat) :
    parentO s (rootD s i) = none := by
  by_cases hi : i < s.length
  · have hr : Reaches s i := h.2 i hi
    have hK : parentO s ((stepP s)^[Nat.find hr] i) = none := Nat.find_spec hr
    have hlt := find_lt_length s h.1 i hi hr
    unfold rootD
    rw [iterate_stab s i hK (Nat.le_of_lt hlt)]
    exact hK
  · have hge := le_of_not_lt hi
    unfold rootD
    rw [iterate_fix_of_parentO_none s i (parentO_none_of_ge s i hge)]
    exact parentO_none_of_ge s i hge

theorem rootD_of_ge (s : Arena) (i : Nat) (h : s.length ≤ i) :
    rootD s i = i := by
  unfold rootD
  exact iterate_fix_of_parentO_none s i (parentO_none_of_ge s i h) _

theorem rootD_of_parent_none (s : Arena) (i : Nat) (h : parentO s i = none) :
    rootD s i = i := by
  unfold rootD
  exact iterate_fix_of_parentO_none s i h _

/-- `r` is the (unique) root of `i`: reachable along parent pointers and
itself parentless. -/
def RootedAt (s : Arena) (i r : Nat) : Prop :=
  (∃ k, (stepP s)^[k] i = r) ∧ parentO s r = none

theorem rootedAt_unique (s : Arena) {i r₁ r₂ : Nat}
    (h₁ : RootedAt s i r₁) (h₂ : RootedAt s i r₂) : r₁ = r₂ := by
  obtain ⟨⟨k₁, hk₁⟩, hr₁⟩ := h₁
  obtain ⟨⟨k₂, hk₂⟩, hr₂⟩ := h₂
  rcases Nat.le_total k₁ k₂ with h | h
  · have := iterate_stab s i (K := k₁) (m := k₂) (by rw [hk₁]; exact hr₁) h
    rw [hk₂, hk₁] at this
    exact this.symm
  · have := iterate_stab s i (K := k₂) (m := k₁) (by rw [hk₂]; exact hr₂) h
    rw [hk₂, hk₁] at this
    exact this

theorem rootD_rootedAt (s : Arena) (h : WF s) (i : Nat) :
    RootedAt s i (rootD s i) :=
  ⟨⟨s.length, rfl⟩, rootD_parent_none s h i⟩

theorem rootedAt_iff_rootD (s : Arena) (h : WF s) (i r : Nat) :
    RootedAt s i r ↔ rootD s i = r := by
  constructor
  · intro hr
    exact (rootedAt_unique s (rootD_rootedAt s h i) hr)
  · rintro rfl
    exact rootD_rootedAt s h i

theorem rootD_parent (s : Arena) (h : WF s) {i p : Nat}
    (hp : parentO s i = some p) : rootD s i = rootD s p := by
  have hstep : stepP s i = p := by simp [stepP, hp]
  have hrp := rootD_rootedAt s h p
  obtain ⟨⟨k, hk⟩, hroot⟩ := hrp
  have : RootedAt s i (rootD s p) := by
    refine ⟨⟨k + 1, ?_⟩, hroot⟩
    rw [Function.iterate_succ_apply, hstep, hk]
  exact rootedAt_unique s (rootD_rootedAt s h i) this

theorem rootD_rootD (s : Arena) (h : WF s) (i : Nat) :
    rootD s (rootD s i) = rootD s i :=
  rootD_of_parent_none s _ (rootD_parent_none s h i)

theorem rootD_lt (s : Arena) (h : WF s) {i : Nat} (hi : i < s.length) :
    rootD s i < s.length :=
  iterate_lt s h.1 i hi s.length

/-- Overwrite the parent pointer of node `i` (the C++ `n->parent = ...`). -/
def setParent (s : Arena) (i : Nat) (p : Option Nat) : Arena :=
  match s.get? i with
  | some d => s.set i { d with parent := p }
  | none => s

/-- The fields of a node other than its parent pointer. -/
def fields (d : Data) : String × Int × Int × Nat :=
  (d.sig, d.depth, d.smallest, d.minimal)

theorem length_setParent (s : Arena) (i : Nat) (p : Option Nat) :
    (setParent s i p).length = s.length := by
  unfold setParent
  cases s.get? i <;> simp

theorem parentO_setParent_self (s : Arena) {i : Nat} (p : Option Nat)
    (hi : i < s.length) : parentO (setParent s i p) i = p := by
  unfold setParent parentO
  cases hd : s.get? i with
  | none => exact absurd (List.get?_eq_none.1 hd) (not_le.2 hi)
  | some d =>
      rw [List.get?_eq_getElem?, List.getElem?_set_eq_of_lt _ hi]

theorem parentO_setParent_ne (s : Arena) {i j : Nat} (p : Option Nat)
    (hne : j ≠ i) : parentO (setParent s i p) j = parentO s j := by
  unfold setParent parentO
  cases hd : s.get? i with
  | none => rfl
  | some d =>
      rw [List.get?_eq_getElem?, List.getElem?_set_ne (fun h => hne h.symm),
        ← List.get?_eq_getElem?]

theorem fields_setParent (s : Arena) (i : Nat) (p : Option Nat) (j : Nat) :
    ((setParent s i p).get? j).map fields = (s.get? j).map fields := by
  unfold setParent
  cases hd : s.get? i with
  | none => rfl
  | some d =>
      by_cases hj : j = i
      · subst hj
        have hlt : j < s.length := by
          by_contra hge
          rw [List.get?_eq_none.2 (le_of_not_lt hge)] at hd
          exact Option.noConfusion hd
        rw [List.get?_eq_getElem?, List.getElem?_set_eq_of_lt _ hlt, hd]
        rfl
      · rw [List.get?_eq_getElem?, List.getElem?_set_ne (fun h => hj h.symm),
          ← List.get?_eq_getElem?]

/-- If a node's parent exists, its root is strictly fewer steps away than
the node's own root distance. -/
theorem find_parent_lt (s : Arena) {j q : Nat} (hp : parentO s j = some q)
    (hj : Reaches s j) (hq : Reaches s q) : Nat.find hq < Nat.find hj := by
  have hstep : stepP s j = q := by simp [stepP, hp]
  have hKj : Nat.find hj ≠ 0 := by
    intro h0
    have := Nat.find_spec hj
    rw [h0] at this
    simp only [Function.iterate_zero, id_eq] at this
    rw [this] at hp
    exact Option.noConfusion hp
  have hshift : (stepP s)^[Nat.find hj] j = (stepP s)^[Nat.find hj - 1] q := by
    conv_lhs => rw [show Nat.find hj = (Nat.find hj - 1) + 1 by omega]
    rw [Function.iterate_succ_apply, hstep]
  have hPq : parentO s ((stepP s)^[Nat.find hj - 1] q) = none := by
    rw [← hshift]; exact Nat.find_spec hj
  have hle : Nat.find hq ≤ Nat.find hj - 1 := Nat.find_le hPq
  omega

/-- Repointing a node directly at its own root changes no node's root. -/
theorem setParent_toRoot_rootedAt (s : Arena) (h : WF s) {i r : Nat}
    (hir : rootD s i = r) (hne : i ≠ r) :
    ∀ j, RootedAt (setParent s i (some r)) j (rootD s j) := by
  have hiPar : ∃ p, parentO s i = some p := by
    cases hp : parentO s i with
    | none => exact absurd (hir ▸ rootD_of_parent_none s i hp).symm hne
    | some p => exact ⟨p, rfl⟩
  have hrRoot : parentO s r = none := hir ▸ rootD_parent_none s h i
  have hri : r ≠ i := fun hx => hne hx.symm
  intro j
  generalize hKj : Nat.find (reaches_all s h j) = K
  induction K using Nat.strong_induction_on generalizing j with
  | _ K ih =>
    cases hpj : parentO s j with
    | none =>
        have hjr : rootD s j = j := rootD_of_parent_none s j hpj
        have hji : j ≠ i := by
          rintro rfl
          obtain ⟨p, hp⟩ := hiPar
          rw [hpj] at hp
          exact Option.noConfusion hp
        refine ⟨⟨0, by simpa using hjr.symm ▸ rfl⟩, ?_⟩
        · rw [hjr, parentO_setParent_ne s (some r) hji]
          exact hpj
    | some q =>
        by_cases hji : j = i
        · subst hji
          have hilt : j < s.length := by
            by_contra hge
            rw [parentO_none_of_ge s j (le_of_not_lt hge)] at hpj
            exact Option.noConfusion hpj
          have hp' : parentO (setParent s j (some r)) j = some r :=
            parentO_setParent_self s (some r) hilt
          refine ⟨⟨1, ?_⟩, ?_⟩
          · simp only [Function.iterate_one, stepP, hp', Option.getD_some]
            exact hir.symm ▸ rfl
          · rw [hir, parentO_setParent_ne s (some r) hri]
            exact hrRoot
        · have hq : Reaches s q := reaches_all s h q
          have hlt : Nat.find hq < K :=
            hKj ▸ find_parent_lt s hpj (reaches_all s h j) hq
          have hIH := ih (Nat.find hq) hlt q rfl
          obtain ⟨⟨k, hk⟩, hroot⟩ := hIH
          have hjq : rootD s j = rootD s q := rootD_parent s h hpj
          have hstep' : stepP (setParent s i (some r)) j = q := by
            rw [stepP, parentO_setParent_ne s (some r) hji, hpj]
            rfl
          refine ⟨⟨k + 1, ?_⟩, ?_⟩
          · rw [Function.iterate_succ_apply, hstep', hk, hjq]
          · rw [hjq]; exact hroot

/-- Path-compression single step: repointing a node at its root preserves
well-formedness and every node's root. -/
theorem setParent_toRoot_preserves (s : Arena) (h : WF s) {i r : Nat}
    (hir : rootD s i = r) (hne : i ≠ r) :
    WF (setParent s i (some r)) ∧
      (∀ j, rootD (setParent s i (some r)) j = rootD s j) := by
  have hilt : i < s.length := by
    by_contra hge
    exact hne (hir ▸ (rootD_of_ge s i (le_of_not_lt hge)).symm)
  have hrlt : r < s.length := hir ▸ rootD_lt s h hilt
  have hall := setParent_toRoot_rootedAt s h hir hne
  have hWF : WF (setParent s i (some r)) := by
    constructor
    · intro j p hp
      rw [length_setParent]
      by_cases hji : j = i
      · subst hji
        rw [parentO_setParent_self s (some r) hilt] at hp
        cases hp
        exact hrlt
      · rw [parentO_setParent_ne s (some r) hji] at hp
        exact h.1 j p hp
    · intro j _
      obtain ⟨⟨k, hk⟩, hroot⟩ := hall j
      exact ⟨k, by rw [hk]; exact hroot⟩
  refine ⟨hWF, fun j => ?_⟩
  exact ((rootedAt_iff_rootD _ hWF j _).1 (hall j))

/-- The compression loop of the free function `root` in `threadpool.cpp`:
walk from `i` towards the already-computed root `r`, repointing every node
on the way directly at `r`.  `fuel` bounds the walk (the C++ loop needs no
bound because the forest is well formed). -/
def compressAux : Nat → Arena → Nat → Nat → Arena
  | 0, s, _, _ => s
  | fuel + 1, s, i, r =>
    match parentO s i with
    | none => s
    | some p => if p = r then s else compressAux fuel (setParent s i (some r)) p r

/-- The free function `root(Data* n)`: find the parentless ancestor, then
compress the path.  Returns the updated arena and the root's index. -/
def root (s : Arena) (i : Nat) : Arena × Nat :=
  let r := rootD s i
  if i = r then (s, r) else (compressAux s.length s i r, r)

theorem root_ne_of_parent (s : Arena) (h : WF s) {i p : Nat}
    (hp : parentO s i = some p) : i ≠ rootD s i := by
  intro heq
  have := rootD_parent_none s h i
  rw [← heq, hp] at this
  exact Option.noConfusion this

theorem compressAux_preserves :
    ∀ (fuel : Nat) (s : Arena) (i r : Nat), WF s → rootD s i = r →
      WF (compressAux fuel s i r) ∧
      (∀ j, rootD (compressAux fuel s i r) j = rootD s j) ∧
      (compressAux fuel s i r).length = s.length ∧
      (∀ j, ((compressAux fuel s i r).get? j).map fields =
        (s.get? j).map fields) := by
  intro fuel
  induction fuel with
  | zero => intro s i r h _; exact ⟨h, fun _ => rfl, rfl, fun _ => rfl⟩
  | succ fuel ih =>
      intro s i r h hir
      simp only [compressAux]
      cases hp : parentO s i with
      | none => exact ⟨h, fun _ => rfl, rfl, fun _ => rfl⟩
      | some p =>
          by_cases hpr : p = r
          · simp only [hpr, if_pos rfl]
            exact ⟨h, fun _ => rfl, rfl, fun _ => rfl⟩
          · simp only [if_neg hpr]
            have hne : i ≠ r := hir ▸ root_ne_of_parent s h hp
            obtain ⟨hWF1, hroots1⟩ := setParent_toRoot_preserves s h hir hne
            have hp1 : rootD (setParent s i (some r)) p = r := by
              rw [hroots1 p, ← rootD_parent s h hp, hir]
            obtain ⟨hWF2, hroots2, hlen2, hfld2⟩ :=
              ih (setParent s i (some r)) p r hWF1 hp1
            refine ⟨hWF2, fun j => ?_, ?_, fun j => ?_⟩
            · rw [hroots2 j, hroots1 j]
            · rw [hlen2, length_setParent]
            · rw [hfld2 j, fields_setParent]

/-- `root` returns the true root, preserves well-formedness, every node's
root, the arena length, and every node's non-parent fields. -/
theorem root_preserves (s : Arena) (h : WF s) (i : Nat) :
    (root s i).2 = rootD s i ∧ WF (root s i).1 ∧
      (∀ j, rootD (root s i).1 j = rootD s j) ∧
      (root s i).1.length = s.length ∧
      (∀ j, ((root s i).1.get? j).map fields = (s.get? j).map fields) := by
  by_cases he : i = rootD s i
  · have hr : root s i = (s, rootD s i) := by
      unfold root
      rw [if_pos he]
    rw [hr]
    exact ⟨rfl, h, fun _ => rfl, rfl, fun _ => rfl⟩
  · have hr : root s i = (compressAux s.length s i (rootD s i), rootD s i) := by
      unfold root
      rw [if_neg he]
    rw [hr]
    obtain ⟨hWF, hroots, hlen, hfld⟩ :=
      compressAux_preserves s.length s i (rootD s i) h rfl
    exact ⟨rfl, hWF, hroots, hlen, hfld⟩

theorem rootD_congr (s s' : Arena) (hp : ∀ j, parentO s' j = parentO s j)
    (hl : s'.length = s.length) (j : Nat) : rootD s' j = rootD s j := by
  have hstep : stepP s' = stepP s := funext fun x => by rw [stepP, stepP, hp]
  rw [rootD, rootD, hstep, hl]

theorem WF_congr (s s' : Arena) (hp : ∀ j, parentO s' j = parentO s j)
    (hl : s'.length = s.length) (h : WF s) : WF s' := by
  have hstep : stepP s' = stepP s := funext fun x => by rw [stepP, stepP, hp]
  constructor
  · intro j p hpj
    rw [hl]
    exact h.1 j p (hp j ▸ hpj)
  · intro j hj
    obtain ⟨k, hk⟩ := reaches_all s h j
    exact ⟨k, by rw [hstep, hp]; exact hk⟩

/-- Linking one root under another moves exactly the loser's class. -/
theorem setParent_link_rootedAt (s : Arena) (h : WF s) {x y : Nat}
    (hx : parentO s x = none) (hy : parentO s y = none) (hxy : x ≠ y)
    (hxlt : x < s.length) :
    ∀ j, RootedAt (setParent s x (some y)) j
      (if rootD s j = x then y else rootD s j) := by
  intro j
  generalize hKj : Nat.find (reaches_all s h j) = K
  induction K using Nat.strong_induction_on generalizing j with
  | _ K ih =>
    cases hpj : parentO s j with
    | none =>
        have hjr : rootD s j = j := rootD_of_parent_none s j hpj
        by_cases hjx : j = x
        · subst hjx
          rw [hjr, if_pos rfl]
          have hp' : parentO (setParent s j (some y)) j = some y :=
            parentO_setParent_self s (some y) hxlt
          refine ⟨⟨1, ?_⟩, ?_⟩
          · simp [stepP, hp']
          · rw [parentO_setParent_ne s (some y) (fun hyx => hxy hyx.symm)]
            exact hy
        · rw [hjr, if_neg hjx]
          refine ⟨⟨0, rfl⟩, ?_⟩
          rw [parentO_setParent_ne s (some y) hjx]
          exact hpj
    | some q =>
        have hjx : j ≠ x := by
          rintro rfl
          rw [hpj] at hx
          exact Option.noConfusion hx
        have hq : Reaches s q := reaches_all s h q
        have hlt : Nat.find hq < K :=
          hKj ▸ find_parent_lt s hpj (reaches_all s h j) hq
        obtain ⟨⟨k, hk⟩, hroot⟩ := ih (Nat.find hq) hlt q rfl
        have hjq : rootD s j = rootD s q := rootD_parent s h hpj
        have hstep' : stepP (setParent s x (some y)) j = q := by
          rw [stepP, parentO_setParent_ne s (some y) hjx, hpj]
          rfl
        rw [hjq]
        refine ⟨⟨k + 1, ?_⟩, hroot⟩
        rw [Function.iterate_succ_apply, hstep', hk]

theorem setParent_link_preserves (s : Arena) (h : WF s) {x y : Nat}
    (hx : parentO s x = none) (hy : parentO s y = none) (hxy : x ≠ y)
    (hxlt : x < s.length) (hylt : y < s.length) :
    WF (setParent s x (some y)) ∧
      ∀ j, rootD (setParent s x (some y)) j =
        if rootD s j = x then y else rootD s j := by
  have hall := setParent_link_rootedAt s h hx hy hxy hxlt
  have hWF : WF (setParent s x (some y)) := by
    constructor
    · intro j p hp
      rw [length_setParent]
      by_cases hjx : j = x
      · subst hjx
        rw [parentO_setParent_self s (some y) hxlt] at hp
        cases hp
        exact hylt
      · rw [parentO_setParent_ne s (some y) hjx] at hp
        exact h.1 j p hp
    · intro j _
      obtain ⟨⟨k, hk⟩, hroot⟩ := hall j
      exact ⟨k, by rw [hk]; exact hroot⟩
  exact ⟨hWF, fun j => (rootedAt_iff_rootD _ hWF j _).1 (hall j)⟩

/-- Overwrite the `smallest` and `minimal` fields of node `i`
(the C++ `xRoot->smallest = ...; xRoot->minimal = ...;`). -/
def updMin (s : Arena) (i : Nat) (sm : Int) (mi : Nat) : Arena :=
  match s.get? i with
  | some d => s.set i { d with smallest := sm, minimal := mi }
  | none => s

/-- `++xRoot->depth`. -/
def incDepth (s : Arena) (i : Nat) : Arena :=
  match s.get? i with
  | some d => s.set i { d with depth := d.depth + 1 }
  | none => s

theorem parentO_updMin (s : Arena) (i : Nat) (sm : Int) (mi : Nat) (j : Nat) :
    parentO (updMin s i sm mi) j = parentO s j := by
  unfold updMin parentO
  cases hd : s.get? i with
  | none => rfl
  | some d =>
      by_cases hj : j = i
      · subst hj
        have hlt : j < s.length := by
          by_contra hge
          rw [List.get?_eq_none.2 (le_of_not_lt hge)] at hd
          exact Option.noConfusion hd
        rw [List.get?_eq_getElem?, List.getElem?_set_eq_of_lt _ hlt, hd]
      · rw [List.get?_eq_getElem?, List.getElem?_set_ne (fun h => hj h.symm),
          ← List.get?_eq_getElem?]

theorem length_updMin (s : Arena) (i : Nat) (sm : Int) (mi : Nat) :
    (updMin s i sm mi).length = s.length := by
  unfold updMin
  cases s.get? i <;> simp

theorem parentO_incDepth (s : Arena) (i : Nat) (j : Nat) :
    parentO (incDepth s i) j = parentO s j := by
  unfold incDepth parentO
  cases hd : s.get? i with
  | none => rfl
  | some d =>
      by_cases hj : j = i
      · subst hj
        have hlt : j < s.length := by
          by_contra hge
          rw [List.get?_eq_none.2 (le_of_not_lt hge)] at hd
          exact Option.noConfusion hd
        rw [List.get?_eq_getElem?, List.getElem?_set_eq_of_lt _ hlt, hd]
      · rw [List.get?_eq_getElem?, List.getElem?_set_ne (fun h => hj h.symm),
          ← List.get?_eq_getElem?]

theorem length_incDepth (s : Arena) (i : Nat) :
    (incDepth s i).length = s.length := by
  unfold incDepth
  cases s.get? i <;> simp

theorem rootD_updMin (s : Arena) (i : Nat) (sm : Int) (mi : Nat) (j : Nat) :
    rootD (updMin s i sm mi) j = rootD s j :=
  rootD_congr s _ (parentO_updMin s i sm mi) (length_updMin s i sm mi) j

theorem rootD_incDepth (s : Arena) (i : Nat) (j : Nat) :
    rootD (incDepth s i) j = rootD s j :=
  rootD_congr s _ (parentO_incDepth s i) (length_incDepth s i) j

theorem WF_updMin (s : Arena) (i : Nat) (sm : Int) (mi : Nat) (h : WF s) :
    WF (updMin s i sm mi) :=
  WF_congr s _ (parentO_updMin s i sm mi) (length_updMin s i sm mi) h

theorem WF_incDepth (s : Arena) (i : Nat) (h : WF s) : WF (incDepth s i) :=
  WF_congr s _ (parentO_incDepth s i) (length_incDepth s i) h

/-- `bool join(Data* a, Data* b)` from `threadpool.cpp`: find (and compress)
both roots; if equal return `false`; otherwise union by depth, recomputing
`smallest`/`minimal` at the surviving root from both former roots. -/
def join (s : Arena) (a b : Nat) : Arena × Bool :=
  let p1 := root s a
  let p2 := root p1.1 b
  let s2 := p2.1
  let aR := p1.2
  let bR := p2.2
  if aR = bR then (s2, false)
  else
    match s2.get? aR, s2.get? bR with
    | some da, some db =>
      if db.depth < da.depth then
        let s3 := setParent s2 bR (some aR)
        (if db.smallest < da.smallest then updMin s3 aR db.smallest db.minimal
         else s3, true)
      else if da.depth < db.depth then
        let s3 := setParent s2 aR (some bR)
        (if da.smallest < db.smallest then updMin s3 bR da.smallest da.minimal
         else s3, true)
      else
        let s3 := incDepth (setParent s2 aR (some bR)) bR
        (if da.smallest < db.smallest then updMin s3 bR da.smallest da.minimal
         else s3, true)
    | _, _ => (s2, false)

def sigO (s : Arena) (j : Nat) : Option String :=
  (s.get? j).map Data.sig

theorem sigO_of_fields {s t : Arena}
    (h : ∀ j, (t.get? j).map fields = (s.get? j).map fields) (j : Nat) :
    sigO t j = sigO s j := by
  unfold sigO
  have := h j
  cases h1 : t.get? j <;> cases h2 : s.get? j <;>
    rw [h1, h2] at this <;> simp_all [fields]

theorem sigO_updMin (s : Arena) (i : Nat) (sm : Int) (mi : Nat) (j : Nat) :
    sigO (updMin s i sm mi) j = sigO s j := by
  unfold updMin sigO
  cases hd : s.get? i with
  | none => rfl
  | some d =>
      by_cases hj : j = i
      · subst hj
        have hlt : j < s.length := by
          by_contra hge
          rw [List.get?_eq_none.2 (le_of_not_lt hge)] at hd
          exact Option.noConfusion hd
        rw [List.get?_eq_getElem?, List.getElem?_set_eq_of_lt _ hlt, hd]
        rfl
      · rw [List.get?_eq_getElem?, List.getElem?_set_ne (fun h => hj h.symm),
          ← List.get?_eq_getElem?]

theorem sigO_incDepth (s : Arena) (i : Nat) (j : Nat) :
    sigO (incDepth s i) j = sigO s j := by
  unfold incDepth sigO
  cases hd : s.get? i with
  | none => rfl
  | some d =>
      by_cases hj : j = i
      · subst hj
        have hlt : j < s.length := by
          by_contra hge
          rw [List.get?_eq_none.2 (le_of_not_lt hge)] at hd
          exact Option.noConfusion hd
        rw [List.get?_eq_getElem?, List.getElem?_set_eq_of_lt _ hlt, hd]
        rfl
      · rw [List.get?_eq_getElem?, List.getElem?_set_ne (fun h => hj h.symm),
          ← List.get?_eq_getElem?]

theorem sigO_setParent (s : Arena) (i : Nat) (p : Option Nat) (j : Nat) :
    sigO (setParent s i p) j = sigO s j :=
  sigO_of_fields (fun j => fields_setParent s i p j) j

/-- Union-by-depth link followed by the (optional) bookkeeping writes:
well-formedness, arena length, signatures, and the root map are as for
the plain link. -/
theorem link_branch (s2 : Arena) (hWF2 : WF s2) {w l : Nat}
    (hwroot : parentO s2 w = none) (hlroot : parentO s2 l = none)
    (hne : l ≠ w) (hllt : l < s2.length) (hwlt : w < s2.length)
    (t : Arena)
    (hpar : ∀ j, parentO t j = parentO (setParent s2 l (some w)) j)
    (hlen : t.length = (setParent s2 l (some w)).length)
    (hsig : ∀ j, sigO t j = sigO (setParent s2 l (some w)) j) :
    WF t ∧ (∀ j, rootD t j = if rootD s2 j = l then w else rootD s2 j) ∧
      t.length = s2.length ∧ (∀ j, sigO t j = sigO s2 j) := by
  obtain ⟨hWF3, hroots3⟩ :=
    setParent_link_preserves s2 hWF2 hlroot hwroot hne hllt hwlt
  have hWFt : WF t := WF_congr _ t hpar (by rw [hlen]) hWF3
  refine ⟨hWFt, fun j => ?_, ?_, fun j => ?_⟩
  · rw [rootD_congr _ t hpar (by rw [hlen]) j, hroots3 j]
  · rw [hlen, length_setParent]
  · rw [hsig j, sigO_setParent]

/-- Full behavioural characterisation of `join`: it reports `false` exactly
when the two arguments already share a root, in which case no root changes;
otherwise it merges precisely the two argument classes (one of the two old
roots survives) and leaves every other class untouched.  Arena length and
all signatures are preserved. -/
theorem join_spec (s : Arena) (h : WF s) {a b : Nat}
    (ha : a < s.length) (hb : b < s.length) :
    WF (join s a b).1 ∧ (join s a b).1.length = s.length ∧
      (∀ j, sigO (join s a b).1 j = sigO s j) ∧
      ((join s a b).2 = false ↔ rootD s a = rootD s b) ∧
      ((join s a b).2 = false → ∀ j, rootD (join s a b).1 j = rootD s j) ∧
      ((join s a b).2 = true → ∃ w l,
        ((w = rootD s a ∧ l = rootD s b) ∨ (w = rootD s b ∧ l = rootD s a)) ∧
        ∀ j, rootD (join s a b).1 j = if rootD s j = l then w else rootD s j) := by
  rcases hp1 : root s a with ⟨s1, aR⟩
  obtain ⟨haR, hWF1, hroots1, hlen1, hfld1⟩ := root_preserves s h a
  rw [hp1] at haR hWF1 hroots1 hlen1 hfld1
  simp only at haR hWF1 hroots1 hlen1 hfld1
  rcases hp2 : root s1 b with ⟨s2, bR⟩
  obtain ⟨hbR, hWF2, hroots2, hlen2, hfld2⟩ := root_preserves s1 hWF1 b
  rw [hp2] at hbR hWF2 hroots2 hlen2 hfld2
  simp only at hbR hWF2 hroots2 hlen2 hfld2
  have hroots : ∀ j, rootD s2 j = rootD s j := fun j => by
    rw [hroots2 j, hroots1 j]
  have hlen : s2.length = s.length := by rw [hlen2, hlen1]
  have hsig : ∀ j, sigO s2 j = sigO s j := fun j => by
    rw [sigO, sigO]
    have e2 := hfld2 j
    have e1 := hfld1 j
    have : ∀ j, sigO s2 j = sigO s1 j := sigO_of_fields hfld2
    have h1 : ∀ j, sigO s1 j = sigO s j := sigO_of_fields hfld1
    have := this j
    rw [sigO, sigO] at this
    rw [this]
    have := h1 j
    rw [sigO, sigO] at this
    rw [this]
  have haR' : aR = rootD s a := by rw [haR]
  have hbR' : bR = rootD s b := by rw [hbR, hroots1 b]
  have hjoin : join s a b =
      (if aR = bR then (s2, false)
       else
        match s2.get? aR, s2.get? bR with
        | some da, some db =>
          if db.depth < da.depth then
            let s3 := setParent s2 bR (some aR)
            (if db.smallest < da.smallest then
              updMin s3 aR db.smallest db.minimal else s3, true)
          else if da.depth < db.depth then
            let s3 := setParent s2 aR (some bR)
            (if da.smallest < db.smallest then
              updMin s3 bR da.smallest da.minimal else s3, true)
          else
            let s3 := incDepth (setParent s2 aR (some bR)) bR
            (if da.smallest < db.smallest then
              updMin s3 bR da.smallest da.minimal else s3, true)
        | _, _ => (s2, false)) := by
    unfold join
    rw [hp1]
    simp only
    rw [hp2]
  by_cases hab : aR = bR
  · rw [hjoin, if_pos hab]
    have hre : rootD s a = rootD s b := by
      rw [← haR', ← hbR', hab]
    exact ⟨hWF2, hlen, hsig, by simp [hre], fun _ => hroots,
      fun hc => absurd hc (by simp)⟩
  · have haroot : parentO s2 aR = none := by
      have : rootD s2 a = aR := by rw [hroots a, haR']
      rw [← this]
      exact rootD_parent_none s2 hWF2 a
    have hbroot : parentO s2 bR = none := by
      have : rootD s2 b = bR := by rw [hroots b, hbR']
      rw [← this]
      exact rootD_parent_none s2 hWF2 b
    have haRlt : aR < s2.length := by
      rw [haR', hlen]
      exact rootD_lt s h ha
    have hbRlt : bR < s2.length := by
      rw [hbR', hlen]
      exact rootD_lt s h hb
    obtain ⟨da, hda⟩ : ∃ d, s2.get? aR = some d := by
      cases hd : s2.get? aR with
      | none => exact absurd (List.get?_eq_none.1 hd) (not_le.2 haRlt)
      | some d => exact ⟨d, rfl⟩
    obtain ⟨db, hdb⟩ : ∃ d, s2.get? bR = some d := by
      cases hd : s2.get? bR with
      | none => exact absurd (List.get?_eq_none.1 hd) (not_le.2 hbRlt)
      | some d => exact ⟨d, rfl⟩
    rw [hjoin, if_neg hab, hda, hdb]
    have hrne : rootD s a ≠ rootD s b := by
      rw [← haR', ← hbR']
      exact hab
    by_cases hd1 : db.depth < da.depth
    · simp only [if_pos hd1]
      have hkey := link_branch s2 hWF2 haroot hbroot
        (fun hx => hab hx.symm) hbRlt haRlt
        (if db.smallest < da.smallest then
          updMin (setParent s2 bR (some aR)) aR db.smallest db.minimal
         else setParent s2 bR (some aR))
        (by
          intro j
          by_cases hc : db.smallest < da.smallest
          · rw [if_pos hc, parentO_updMin]
          · rw [if_neg hc])
        (by
          by_cases hc : db.smallest < da.smallest
          · rw [if_pos hc, length_updMin]
          · rw [if_neg hc])
        (by
          intro j
          by_cases hc : db.smallest < da.smallest
          · rw [if_pos hc, sigO_updMin]
          · rw [if_neg hc])
      obtain ⟨hWFt, hrootst, hlent, hsigt⟩ := hkey
      refine ⟨hWFt, by rw [hlent, hlen], fun j => by rw [hsigt j, hsig j],
        by simp [hrne], by simp, fun _ => ?_⟩
      refine ⟨aR, bR, Or.inl ⟨haR', hbR'⟩, fun j => ?_⟩
      rw [hrootst j]
      by_cases hc : rootD s j = bR
      · rw [if_pos (by rw [hroots j]; exact hc), if_pos hc]
      · rw [if_neg (by rw [hroots j]; exact hc), if_neg hc, hroots j]
    · simp only [if_neg hd1]
      by_cases hd2 : da.depth < db.depth
      · simp only [if_pos hd2]
        have hba : bR ≠ aR := fun hx => hab hx.symm
        have hkey := link_branch s2 hWF2 hbroot haroot hab haRlt hbRlt
          (if da.smallest < db.smallest then
            updMin (setParent s2 aR (some bR)) bR da.smallest da.minimal
           else setParent s2 aR (some bR))
          (by
            intro j
            by_cases hc : da.smallest < db.smallest
            · rw [if_pos hc, parentO_updMin]
            · rw [if_neg hc])
          (by
            by_cases hc : da.smallest < db.smallest
            · rw [if_pos hc, length_updMin]
            · rw [if_neg hc])
          (by
            intro j
            by_cases hc : da.smallest < db.smallest
            · rw [if_pos hc, sigO_updMin]
            · rw [if_neg hc])
        obtain ⟨hWFt, hrootst, hlent, hsigt⟩ := hkey
        refine ⟨hWFt, by rw [hlent, hlen], fun j => by rw [hsigt j, hsig j],
          by simp [hrne], by simp, fun _ => ?_⟩
        refine ⟨bR, aR, Or.inr ⟨hbR', haR'⟩, fun j => ?_⟩
        rw [hrootst j]
        by_cases hc : rootD s j = aR
        · rw [if_pos (by rw [hroots j]; exact hc), if_pos hc]
        · rw [if_neg (by rw [hroots j]; exact hc), if_neg hc, hroots j]
      · simp only [if_neg hd2]
        have hkey := link_branch s2 hWF2 hbroot haroot hab haRlt hbRlt
          (if da.smallest < db.smallest then
            updMin (incDepth (setParent s2 aR (some bR)) bR) bR
              da.smallest da.minimal
           else incDepth (setParent s2 aR (some bR)) bR)
          (by
            intro j
            by_cases hc : da.smallest < db.smallest
            · rw [if_pos hc, parentO_updMin, parentO_incDepth]
            · rw [if_neg hc, parentO_incDepth])
          (by
            by_cases hc : da.smallest < db.smallest
            · rw [if_pos hc, length_updMin, length_incDepth]
            · rw [if_neg hc, length_incDepth])
          (by
            intro j
            by_cases hc : da.smallest < db.smallest
            · rw [if_pos hc, sigO_updMin, sigO_incDepth]
            · rw [if_neg hc, sigO_incDepth])
        obtain ⟨hWFt, hrootst, hlent, hsigt⟩ := hkey
        refine ⟨hWFt, by rw [hlent, hlen], fun j => by rw [hsigt j, hsig j],
          by simp [hrne], by simp, fun _ => ?_⟩
        refine ⟨bR, aR, Or.inr ⟨hbR', haR'⟩, fun j => ?_⟩
        rw [hrootst j]
        by_cases hc : rootD s j = aR
        · rw [if_pos (by rw [hroots j]; exact hc), if_pos hc]
        · rw [if_neg (by rw [hroots j]; exact hc), if_neg hc, hroots j]

/-- One operation on a `Graph`'s union-find forest: a call to `join` or a
bare (path-compressing) call to `root`. -/
inductive Op where
  | joinOp : Nat → Nat → Op
  | rootOp : Nat → Op
deriving Repr, DecidableEq

def exec1 (s : Arena) : Op → Arena
  | .joinOp a b => (join s a b).1
  | .rootOp a => (root s a).1

/-- Execute a sequence of interleaved `join`/`root` calls. -/
def execOps (s : Arena) (ops : List Op) : Arena :=
  ops.foldl exec1 s

/-- The starting forest: one freshly constructed `Data` per signature. -/
def initUF (sigs : List String) : Arena :=
  sigs.enum.map (fun p => mkData p.2 p.1)

def validOp (n : Nat) : Op → Bool
  | .joinOp a b => decide (a < n) && decide (b < n)
  | .rootOp _ => true

@[reducible]
def ValidOps (n : Nat) (ops : List Op) : Prop :=
  ∀ op ∈ ops, validOp n op = true

/-- `x` and `y` are the two arguments of some `join` in the sequence. -/
def joined (ops : List Op) (x y : Nat) : Prop :=
  Op.joinOp x y ∈ ops

/-- `x` and `y` are connected by a chain of `join` calls of the sequence. -/
def Connected (ops : List Op) (x y : Nat) : Prop :=
  Relation.EqvGen (joined ops) x y

theorem length_initUF (sigs : List String) :
    (initUF sigs).length = sigs.length := by
  unfold initUF
  rw [List.length_map, List.enum_length]

theorem parentO_initUF (sigs : List String) (i : Nat) :
    parentO (initUF sigs) i = none := by
  unfold initUF parentO
  rw [List.get?_map]
  cases (sigs.enum).get? i <;> rfl

theorem rootD_initUF (sigs : List String) (i : Nat) :
    rootD (initUF sigs) i = i :=
  rootD_of_parent_none _ i (parentO_initUF sigs i)

theorem WF_initUF (sigs : List String) : WF (initUF sigs) := by
  constructor
  · intro i p hp
    rw [parentO_initUF] at hp
    exact Option.noConfusion hp
  · intro i _
    exact ⟨0, by simpa using parentO_initUF sigs i⟩

theorem exec1_preserves (s : Arena) (op : Op) (h : WF s)
    (hv : validOp s.length op = true) :
    WF (exec1 s op) ∧ (exec1 s op).length = s.length := by
  cases op with
  | joinOp a b =>
      simp only [validOp, Bool.and_eq_true, decide_eq_true_eq] at hv
      obtain ⟨hwf, hlen, _⟩ := join_spec s h hv.1 hv.2
      exact ⟨hwf, hlen⟩
  | rootOp a =>
      obtain ⟨_, hwf, _, hlen, _⟩ := root_preserves s h a
      exact ⟨hwf, hlen⟩

theorem exec1_mono (s : Arena) (op : Op) (h : WF s)
    (hv : validOp s.length op = true) {x y : Nat}
    (hxy : rootD s x = rootD s y) :
    rootD (exec1 s op) x = rootD (exec1 s op) y := by
  cases op with
  | joinOp a b =>
      simp only [validOp, Bool.and_eq_true, decide_eq_true_eq] at hv
      obtain ⟨_, _, _, hiff, hfalse, htrue⟩ := join_spec s h hv.1 hv.2
      cases hres : (join s a b).2 with
      | false =>
          rw [exec1, hfalse hres x, hfalse hres y, hxy]
      | true =>
          obtain ⟨w, l, _, hmap⟩ := htrue hres
          rw [exec1, hmap x, hmap y, hxy]
  | rootOp a =>
      obtain ⟨_, _, hroots, _, _⟩ := root_preserves s h a
      rw [exec1, hroots x, hroots y, hxy]

theorem execOps_preserves (ops : List Op) :
    ∀ (s : Arena), WF s → ValidOps s.length ops →
      WF (execOps s ops) ∧ (execOps s ops).length = s.length := by
  induction ops with
  | nil => intro s h _; exact ⟨h, rfl⟩
  | cons op ops ih =>
      intro s h hv
      have hv0 : validOp s.length op = true := hv op (List.mem_cons_self op ops)
      obtain ⟨hwf1, hlen1⟩ := exec1_preserves s op h hv0
      have hvtail : ValidOps (exec1 s op).length ops := by
        intro o ho
        rw [hlen1]
        exact hv o (List.mem_cons_of_mem op ho)
      obtain ⟨hwf2, hlen2⟩ := ih (exec1 s op) hwf1 hvtail
      exact ⟨hwf2, by rw [execOps, List.foldl_cons, ← execOps, hlen2, hlen1]⟩

theorem execOps_mono (ops : List Op) :
    ∀ (s : Arena), WF s → ValidOps s.length ops → ∀ {x y : Nat},
      rootD s x = rootD s y →
      rootD (execOps s ops) x = rootD (execOps s ops) y := by
  induction ops with
  | nil => intro s _ _ x y hxy; exact hxy
  | cons op ops ih =>
      intro s h hv x y hxy
      have hv0 : validOp s.length op = true := hv op (List.mem_cons_self op ops)
      obtain ⟨hwf1, hlen1⟩ := exec1_preserves s op h hv0
      have hvtail : ValidOps (exec1 s op).length ops := by
        intro o ho
        rw [hlen1]
        exact hv o (List.mem_cons_of_mem op ho)
      rw [execOps, List.foldl_cons, ← execOps]
      exact ih (exec1 s op) hwf1 hvtail (exec1_mono s op h hv0 hxy)

theorem join_connects (s : Arena) (h : WF s) {a b : Nat}
    (ha : a < s.length) (hb : b < s.length) :
    rootD (join s a b).1 a = rootD (join s a b).1 b := by
  obtain ⟨_, _, _, hiff, hfalse, htrue⟩ := join_spec s h ha hb
  cases hres : (join s a b).2 with
  | false =>
      rw [hfalse hres a, hfalse hres b]
      exact hiff.1 hres
  | true =>
      obtain ⟨w, l, hwl, hmap⟩ := htrue hres
      rw [hmap a, hmap b]
      have hne : rootD s a ≠ rootD s b := by
        intro hcontra
        rw [hiff.2 hcontra] at hres
        exact Bool.noConfusion hres
      rcases hwl with ⟨hw, hl⟩ | ⟨hw, hl⟩
      · rw [if_neg (hl ▸ hne), if_pos (by rw [hl])]
        rw [hw]
      · rw [if_pos (by rw [hl]), if_neg (by rw [hl]; exact fun hc => hne hc.symm)]
        rw [hw]

theorem connected_mono {ops ops' : List Op}
    (hsub : ∀ x y, joined ops x y → joined ops' x y) {x y : Nat}
    (h : Connected ops x y) : Connected ops' x y := by
  induction h with
  | rel a b hab => exact Relation.EqvGen.rel a b (hsub a b hab)
  | refl a => exact Relation.EqvGen.refl a
  | symm a b _ ih => exact Relation.EqvGen.symm a b ih
  | trans a b c _ _ ih1 ih2 => exact Relation.EqvGen.trans a b c ih1 ih2

/-- Soundness: any two nodes connected by a chain of `join` calls end up
with the same root. -/
theorem connected_to_sameRoot (sigs : List String) (ops : List Op)
    (hv : ValidOps sigs.length ops) {x y : Nat}
    (h : Connected ops x y) :
    rootD (execOps (initUF sigs) ops) x = rootD (execOps (initUF sigs) ops) y := by
  induction h with
  | refl a => rfl
  | symm a b _ ih => exact ih.symm
  | trans a b c _ _ ih1 ih2 => exact ih1.trans ih2
  | rel a b hab =>
      obtain ⟨l1, l2, rfl⟩ := List.append_of_mem hab
      have hvl1 : ValidOps sigs.length l1 := fun o ho =>
        hv o (List.mem_append_left _ ho)
      have hv0 : validOp sigs.length (Op.joinOp a b) = true :=
        hv _ (List.mem_append_right _ (List.mem_cons_self _ _))
      simp only [validOp, Bool.and_eq_true, decide_eq_true_eq] at hv0
      have hWF0 := WF_initUF sigs
      have hlen0 := length_initUF sigs
      obtain ⟨hwf1, hlen1⟩ := execOps_preserves l1 (initUF sigs) hWF0
        (by rw [hlen0]; exact hvl1)
      set s1 := execOps (initUF sigs) l1 with hs1
      have hsplit : execOps (initUF sigs) (l1 ++ Op.joinOp a b :: l2) =
          execOps (exec1 s1 (Op.joinOp a b)) l2 := by
        rw [execOps, List.foldl_append, List.foldl_cons]
        rfl
      rw [hsplit]
      have halen : a < s1.length := by rw [hlen1, hlen0]; exact hv0.1
      have hblen : b < s1.length := by rw [hlen1, hlen0]; exact hv0.2
      have hjoined : rootD (exec1 s1 (Op.joinOp a b)) a =
          rootD (exec1 s1 (Op.joinOp a b)) b :=
        join_connects s1 hwf1 halen hblen
      have hv0' : validOp s1.length (Op.joinOp a b) = true := by
        simp only [validOp, Bool.and_eq_true, decide_eq_true_eq]
        exact ⟨halen, hblen⟩
      obtain ⟨hwf2, hlen2⟩ := exec1_preserves s1 (Op.joinOp a b) hwf1 hv0'
      have hvl2 : ValidOps (exec1 s1 (Op.joinOp a b)).length l2 := by
        intro o ho
        rw [hlen2, hlen1, hlen0]
        exact hv o (List.mem_append_right _ (List.mem_cons_of_mem _ ho))
      exact execOps_mono l2 _ hwf2 hvl2 hjoined

/-- Completeness: if two valid nodes share a root after the sequence, they
were connected by a chain of `join` calls. -/
theorem sameRoot_to_connected (sigs : List String) (ops : List Op)
    (hv : ValidOps sigs.length ops) :
    ∀ x y, x < sigs.length → y < sigs.length →
      rootD (execOps (initUF sigs) ops) x = rootD (execOps (initUF sigs) ops) y →
      Connected ops x y := by
  induction ops using List.reverseRecOn with
  | nil =>
      intro x y _ _ hxy
      rw [execOps, List.foldl_nil, rootD_initUF, rootD_initUF] at hxy
      rw [hxy]
      exact Relation.EqvGen.refl y
  | append_singleton ops op ih =>
      intro x y hx hy hxy
      have hvops : ValidOps sigs.length ops := fun o ho =>
        hv o (List.mem_append_left _ ho)
      have hWF0 := WF_initUF sigs
      have hlen0 := length_initUF sigs
      obtain ⟨hwf1, hlen1⟩ := execOps_preserves ops (initUF sigs) hWF0
        (by rw [hlen0]; exact hvops)
      set s1 := execOps (initUF sigs) ops with hs1
      have hsplit : execOps (initUF sigs) (ops ++ [op]) = exec1 s1 op := by
        rw [execOps, List.foldl_append, List.foldl_cons, List.foldl_nil]
        rfl
      rw [hsplit] at hxy
      have hsubmono : ∀ u v, joined ops u v → joined (ops ++ [op]) u v :=
        fun u v huv => List.mem_append_left _ huv
      cases op with
      | rootOp a =>
          obtain ⟨_, _, hroots, _, _⟩ := root_preserves s1 hwf1 a
          rw [exec1, hroots x, hroots y] at hxy
          exact connected_mono hsubmono (ih hvops x y hx hy hxy)
      | joinOp a b =>
          have hv0 : validOp sigs.length (Op.joinOp a b) = true :=
            hv _ (List.mem_append_right _ (List.mem_cons_self _ _))
          simp only [validOp, Bool.and_eq_true, decide_eq_true_eq] at hv0
          have halen : a < s1.length := by rw [hlen1, hlen0]; exact hv0.1
          have hblen : b < s1.length := by rw [hlen1, hlen0]; exact hv0.2
          obtain ⟨_, _, _, hiff, hfalse, htrue⟩ := join_spec s1 hwf1 halen hblen
          have hbase : joined (ops ++ [Op.joinOp a b]) a b :=
            List.mem_append_right _ (List.mem_cons_self _ _)
          cases hres : (join s1 a b).2 with
          | false =>
              rw [exec1, hfalse hres x, hfalse hres y] at hxy
              exact connected_mono hsubmono (ih hvops x y hx hy hxy)
          | true =>
              obtain ⟨w, l, hwl, hmap⟩ := htrue hres
              rw [exec1, hmap x, hmap y] at hxy
              have hwl_ne : w ≠ l := by
                have hne : rootD s1 a ≠ rootD s1 b := by
                  intro hcontra
                  rw [hiff.2 hcontra] at hres
                  exact Bool.noConfusion hres
                rcases hwl with ⟨hw, hl⟩ | ⟨hw, hl⟩
                · rw [hw, hl]; exact hne
                · rw [hw, hl]; exact fun hc => hne hc.symm
              by_cases hcx : rootD s1 x = l
              · rw [if_pos hcx] at hxy
                by_cases hcy : rootD s1 y = l
                · exact connected_mono hsubmono
                    (ih hvops x y hx hy (hcx.trans hcy.symm))
                · rw [if_neg hcy] at hxy
                  -- x sits in the losing class, y in the winning class
                  have hxl : rootD s1 x = l := hcx
                  have hyw : rootD s1 y = w := hxy.symm
                  rcases hwl with ⟨hw, hl⟩ | ⟨hw, hl⟩
                  · -- w = root a, l = root b : x ~ b, y ~ a
                    have hxb : Connected ops x b :=
                      ih hvops x b hx hv0.2 (by rw [hxl, hl])
                    have hya : Connected ops y a :=
                      ih hvops y a hy hv0.1 (by rw [hyw, hw])
                    exact Relation.EqvGen.trans _ _ _
                      (connected_mono hsubmono hxb)
                      (Relation.EqvGen.trans _ _ _
                        (Relation.EqvGen.symm _ _ (Relation.EqvGen.rel a b hbase))
                        (Relation.EqvGen.symm _ _ (connected_mono hsubmono hya)))
                  · -- w = root b, l = root a : x ~ a, y ~ b
                    have hxa : Connected ops x a :=
                      ih hvops x a hx hv0.1 (by rw [hxl, hl])
                    have hyb : Connected ops y b :=
                      ih hvops y b hy hv0.2 (by rw [hyw, hw])
                    exact Relation.EqvGen.trans _ _ _
                      (connected_mono hsubmono hxa)
                      (Relation.EqvGen.trans _ _ _
                        (Relation.EqvGen.rel a b hbase)
                        (Relation.EqvGen.symm _ _ (connected_mono hsubmono hyb)))
              · rw [if_neg hcx] at hxy
                by_cases hcy : rootD s1 y = l
                · rw [if_pos hcy] at hxy
                  have hxw : rootD s1 x = w := hxy
                  rcases hwl with ⟨hw, hl⟩ | ⟨hw, hl⟩
                  · have hxa : Connected ops x a :=
                      ih hvops x a hx hv0.1 (by rw [hxw, hw])
                    have hyb : Connected ops y b :=
                      ih hvops y b hy hv0.2 (by rw [hcy, hl])
                    exact Relation.EqvGen.trans _ _ _
                      (connected_mono hsubmono hxa)
                      (Relation.EqvGen.trans _ _ _
                        (Relation.EqvGen.rel a b hbase)
                        (Relation.EqvGen.symm _ _ (connected_mono hsubmono hyb)))
                  · have hxb : Connected ops x b :=
                      ih hvops x b hx hv0.2 (by rw [hxw, hw])
                    have hya : Connected ops y a :=
                      ih hvops y a hy hv0.1 (by rw [hcy, hl])
                    exact Relation.EqvGen.trans _ _ _
                      (connected_mono hsubmono hxb)
                      (Relation.EqvGen.trans _ _ _
                        (Relation.EqvGen.symm _ _ (Relation.EqvGen.rel a b hbase))
                        (Relation.EqvGen.symm _ _ (connected_mono hsubmono hya)))
                · rw [if_neg hcy] at hxy
                  exact connected_mono hsubmono (ih hvops x y hx hy hxy)

/-- C1: over any sequence of `join` operations on one Graph's nodes, with
path-compressing `root` calls interleaved arbitrarily, two nodes have equal
roots exactly when they are connected by a chain of joins; in particular the
interleaved `root` calls never change the equivalence (the right-hand side
ignores them). -/
theorem claim_C1_root_iff_connected (sigs : List String) (ops : List Op)
    (hv : ValidOps sigs.length ops) {x y : Nat}
    (hx : x < sigs.length) (hy : y < sigs.length) :
    rootD (execOps (initUF sigs) ops) x = rootD (execOps (initUF sigs) ops) y ↔
      Connected ops x y :=
  ⟨sameRoot_to_connected sigs ops hv x y hx hy,
   connected_to_sameRoot sigs ops hv⟩

theorem claim_C1_witness :
    ValidOps (["b", "c", "d"].length)
        [Op.joinOp 0 1, Op.rootOp 2, Op.joinOp 1 2] ∧
      (rootD (execOps (initUF ["b", "c", "d"])
          [Op.joinOp 0 1, Op.rootOp 2, Op.joinOp 1 2]) 0 =
        rootD (execOps (initUF ["b", "c", "d"])
          [Op.joinOp 0 1, Op.rootOp 2, Op.joinOp 1 2]) 2 ↔
        Connected [Op.joinOp 0 1, Op.rootOp 2, Op.joinOp 1 2] 0 2) :=
  ⟨by decide,
   claim_C1_root_iff_connected ["b", "c", "d"] _ (by decide) (by decide)
     (by decide)⟩

def smallestAt (s : Arena) (i : Nat) : Option Int :=
  (s.get? i).map Data.smallest

def minimalAt (s : Arena) (i : Nat) : Option Nat :=
  (s.get? i).map Data.minimal

theorem smallestAt_of_fields {s t : Arena}
    (h : ∀ j, (t.get? j).map fields = (s.get? j).map fields) (j : Nat) :
    smallestAt t j = smallestAt s j := by
  unfold smallestAt
  have := h j
  cases h1 : t.get? j <;> cases h2 : s.get? j <;>
    rw [h1, h2] at this <;> simp_all [fields]

theorem minimalAt_of_fields {s t : Arena}
    (h : ∀ j, (t.get? j).map fields = (s.get? j).map fields) (j : Nat) :
    minimalAt t j = minimalAt s j := by
  unfold minimalAt
  have := h j
  cases h1 : t.get? j <;> cases h2 : s.get? j <;>
    rw [h1, h2] at this <;> simp_all [fields]

theorem get?_setParent_ne (s : Arena) {i j : Nat} (p : Option Nat)
    (hne : j ≠ i) : (setParent s i p).get? j = s.get? j := by
  unfold setParent
  cases hd : s.get? i with
  | none => rfl
  | some d =>
      rw [List.get?_eq_getElem?, List.getElem?_set_ne (fun h => hne h.symm),
        ← List.get?_eq_getElem?]

theorem get?_incDepth_self (s : Arena) {i : Nat} {d : Data}
    (hd : s.get? i = some d) :
    (incDepth s i).get? i = some { d with depth := d.depth + 1 } := by
  unfold incDepth
  rw [hd]
  have hlt : i < s.length := by
    by_contra hge
    rw [List.get?_eq_none.2 (le_of_not_lt hge)] at hd
    exact Option.noConfusion hd
  rw [List.get?_eq_getElem?, List.getElem?_set_eq_of_lt _ hlt]

theorem get?_incDepth_ne (s : Arena) {i j : Nat} (hne : j ≠ i) :
    (incDepth s i).get? j = s.get? j := by
  unfold incDepth
  cases hd : s.get? i with
  | none => rfl
  | some d =>
      rw [List.get?_eq_getElem?, List.getElem?_set_ne (fun h => hne h.symm),
        ← List.get?_eq_getElem?]

theorem get?_updMin_self (s : Arena) {i : Nat} {d : Data} (sm : Int) (mi : Nat)
    (hd : s.get? i = some d) :
    (updMin s i sm mi).get? i = some { d with smallest := sm, minimal := mi } := by
  unfold updMin
  rw [hd]
  have hlt : i < s.length := by
    by_contra hge
    rw [List.get?_eq_none.2 (le_of_not_lt hge)] at hd
    exact Option.noConfusion hd
  rw [List.get?_eq_getElem?, List.getElem?_set_eq_of_lt _ hlt]

theorem get?_updMin_ne (s : Arena) {i j : Nat} (sm : Int) (mi : Nat)
    (hne : j ≠ i) : (updMin s i sm mi).get? j = s.get? j := by
  unfold updMin
  cases hd : s.get? i with
  | none => rfl
  | some d =>
      rw [List.get?_eq_getElem?, List.getElem?_set_ne (fun h => hne h.symm),
        ← List.get?_eq_getElem?]

/-- C8: whenever `join` merges two previously distinct roots, the surviving
root's `smallest` equals the minimum of the two former roots' `smallest`
values (recomputed from both sides, not copied from one), and its `minimal`
reference points at a node achieving that minimum. -/
theorem claim_C8_join_recomputes_min (s : Arena) (h : WF s) {a b : Nat}
    (ha : a < s.length) (hb : b < s.length)
    (hmerge : (join s a b).2 = true)
    {sa sb : Int} (hsa : smallestAt s (rootD s a) = some sa)
    (hsb : smallestAt s (rootD s b) = some sb)
    {ma mb : Nat} (hma : minimalAt s (rootD s a) = some ma)
    (hmb : minimalAt s (rootD s b) = some mb)
    {siga sigb : String} (hsiga : sigO s ma = some siga)
    (hsigb : sigO s mb = some sigb)
    (hpa : proxy siga = sa) (hpb : proxy sigb = sb) :
    ∃ r, (r = rootD s a ∨ r = rootD s b) ∧
      rootD (join s a b).1 a = r ∧ rootD (join s a b).1 b = r ∧
      smallestAt (join s a b).1 r = some (min sa sb) ∧
      ∃ m sigm, minimalAt (join s a b).1 r = some m ∧
        sigO (join s a b).1 m = some sigm ∧ proxy sigm = min sa sb := by
  obtain ⟨_, _, hsigs, hiff, _, _⟩ := join_spec s h ha hb
  rcases hp1 : root s a with ⟨s1, aR⟩
  obtain ⟨haR, hWF1, hroots1, hlen1, hfld1⟩ := root_preserves s h a
  rw [hp1] at haR hWF1 hroots1 hlen1 hfld1
  simp only at haR hWF1 hroots1 hlen1 hfld1
  rcases hp2 : root s1 b with ⟨s2, bR⟩
  obtain ⟨hbR, hWF2, hroots2, hlen2, hfld2⟩ := root_preserves s1 hWF1 b
  rw [hp2] at hbR hWF2 hroots2 hlen2 hfld2
  simp only at hbR hWF2 hroots2 hlen2 hfld2
  have hroots : ∀ j, rootD s2 j = rootD s j := fun j => by
    rw [hroots2 j, hroots1 j]
  have hlen : s2.length = s.length := by rw [hlen2, hlen1]
  have hfld : ∀ j, (s2.get? j).map fields = (s.get? j).map fields := fun j => by
    rw [hfld2 j, hfld1 j]
  have haR' : aR = rootD s a := by rw [haR]
  have hbR' : bR = rootD s b := by rw [hbR, hroots1 b]
  have hrne : rootD s a ≠ rootD s b := by
    intro hcontra
    rw [hiff.2 hcontra] at hmerge
    exact Bool.noConfusion hmerge
  have hab : aR ≠ bR := by
    rw [haR', hbR']
    exact hrne
  have hjoin : join s a b =
      (if aR = bR then (s2, false)
       else
        match s2.get? aR, s2.get? bR with
        | some da, some db =>
          if db.depth < da.depth then
            let s3 := setParent s2 bR (some aR)
            (if db.smallest < da.smallest then
              updMin s3 aR db.smallest db.minimal else s3, true)
          else if da.depth < db.depth then
            let s3 := setParent s2 aR (some bR)
            (if da.smallest < db.smallest then
              updMin s3 bR da.smallest da.minimal else s3, true)
          else
            let s3 := incDepth (setParent s2 aR (some bR)) bR
            (if da.smallest < db.smallest then
              updMin s3 bR da.smallest da.minimal else s3, true)
        | _, _ => (s2, false)) := by
    unfold join
    rw [hp1]
    simp only
    rw [hp2]
  have haroot : parentO s2 aR = none := by
    have : rootD s2 a = aR := by rw [hroots a, haR']
    rw [← this]
    exact rootD_parent_none s2 hWF2 a
  have hbroot : parentO s2 bR = none := by
    have : rootD s2 b = bR := by rw [hroots b, hbR']
    rw [← this]
    exact rootD_parent_none s2 hWF2 b
  have haRlt : aR < s2.length := by
    rw [haR', hlen]
    exact rootD_lt s h ha
  have hbRlt : bR < s2.length := by
    rw [hbR', hlen]
    exact rootD_lt s h hb
  obtain ⟨da, hda⟩ : ∃ d, s2.get? aR = some d := by
    cases hd : s2.get? aR with
    | none => exact absurd (List.get?_eq_none.1 hd) (not_le.2 haRlt)
    | some d => exact ⟨d, rfl⟩
  obtain ⟨db, hdb⟩ : ∃ d, s2.get? bR = some d := by
    cases hd : s2.get? bR with
    | none => exact absurd (List.get?_eq_none.1 hd) (not_le.2 hbRlt)
    | some d => exact ⟨d, rfl⟩
  have hdaS : da.smallest = sa := by
    have h2 : smallestAt s2 aR = smallestAt s aR := smallestAt_of_fields hfld aR
    rw [smallestAt, hda, haR', hsa] at h2
    exact Option.some.inj h2
  have hdbS : db.smallest = sb := by
    have h2 : smallestAt s2 bR = smallestAt s bR := smallestAt_of_fields hfld bR
    rw [smallestAt, hdb, hbR', hsb] at h2
    exact Option.some.inj h2
  have hdaM : da.minimal = ma := by
    have h2 : minimalAt s2 aR = minimalAt s aR := minimalAt_of_fields hfld aR
    rw [minimalAt, hda, haR', hma] at h2
    exact Option.some.inj h2
  have hdbM : db.minimal = mb := by
    have h2 : minimalAt s2 bR = minimalAt s bR := minimalAt_of_fields hfld bR
    rw [minimalAt, hdb, hbR', hmb] at h2
    exact Option.some.inj h2
  by_cases hd1 : db.depth < da.depth
  · -- survivor aR, loser bR
    have hpost : (join s a b).1 =
        (if db.smallest < da.smallest then
          updMin (setParent s2 bR (some aR)) aR db.smallest db.minimal
         else setParent s2 bR (some aR)) := by
      rw [hjoin, if_neg hab, hda, hdb]
      simp only [if_pos hd1]
    obtain ⟨hWF3, hroots3⟩ := setParent_link_preserves s2 hWF2 hbroot haroot
      (fun hx => hab hx.symm) hbRlt haRlt
    have hS3aR : (setParent s2 bR (some aR)).get? aR = some da := by
      rw [get?_setParent_ne s2 (some aR) hab, hda]
    refine ⟨aR, Or.inl haR', ?_, ?_, ?_, ?_⟩
    · rw [hpost]
      by_cases hc : db.smallest < da.smallest
      · rw [if_pos hc, rootD_updMin, hroots3 a,
          if_neg (fun hx => hab ((haR'.trans (hroots a).symm).trans hx))]
        exact (hroots a).trans haR'.symm
      · rw [if_neg hc, hroots3 a,
          if_neg (fun hx => hab ((haR'.trans (hroots a).symm).trans hx))]
        exact (hroots a).trans haR'.symm
    · rw [hpost]
      by_cases hc : db.smallest < da.smallest
      · rw [if_pos hc, rootD_updMin, hroots3 b,
          if_pos (by rw [hroots b, hbR'])]
      · rw [if_neg hc, hroots3 b, if_pos (by rw [hroots b, hbR'])]
    · rw [hpost]
      by_cases hc : db.smallest < da.smallest
      · rw [if_pos hc, smallestAt,
          get?_updMin_self _ db.smallest db.minimal hS3aR]
        have : min sa sb = sb := min_eq_right (le_of_lt (by
          rw [← hdaS, ← hdbS]; exact hc))
        rw [this, ← hdbS]
        rfl
      · rw [if_neg hc, smallestAt, hS3aR]
        have : min sa sb = sa := min_eq_left (by
          rw [← hdaS, ← hdbS]; exact le_of_not_lt hc)
        rw [this, ← hdaS]
        rfl
    · by_cases hc : db.smallest < da.smallest
      · refine ⟨mb, sigb, ?_, ?_, ?_⟩
        · rw [hpost, if_pos hc, minimalAt,
            get?_updMin_self _ db.smallest db.minimal hS3aR]
          rw [← hdbM]
          rfl
        · rw [hsigs mb]
          exact hsigb
        · rw [hpb]
          exact (min_eq_right (le_of_lt (by
            rw [← hdaS, ← hdbS]; exact hc))).symm
      · refine ⟨ma, siga, ?_, ?_, ?_⟩
        · rw [hpost, if_neg hc, minimalAt, hS3aR, ← hdaM]
          rfl
        · rw [hsigs ma]
          exact hsiga
        · rw [hpa]
          exact (min_eq_left (by
            rw [← hdaS, ← hdbS]; exact le_of_not_lt hc)).symm
  · by_cases hd2 : da.depth < db.depth
    · -- survivor bR, loser aR
      have hpost : (join s a b).1 =
          (if da.smallest < db.smallest then
            updMin (setParent s2 aR (some bR)) bR da.smallest da.minimal
           else setParent s2 aR (some bR)) := by
        rw [hjoin, if_neg hab, hda, hdb]
        simp only [if_neg hd1, if_pos hd2]
      obtain ⟨hWF3, hroots3⟩ := setParent_link_preserves s2 hWF2 haroot hbroot
        hab haRlt hbRlt
      have hS3bR : (setParent s2 aR (some bR)).get? bR = some db := by
        rw [get?_setParent_ne s2 (some bR) (fun hx => hab hx.symm), hdb]
      refine ⟨bR, Or.inr hbR', ?_, ?_, ?_, ?_⟩
      · rw [hpost]
        by_cases hc : da.smallest < db.smallest
        · rw [if_pos hc, rootD_updMin, hroots3 a, if_pos (by rw [hroots a, haR'])]
        · rw [if_neg hc, hroots3 a, if_pos (by rw [hroots a, haR'])]
      · rw [hpost]
        by_cases hc : da.smallest < db.smallest
        · rw [if_pos hc, rootD_updMin, hroots3 b,
            if_neg (fun hx => hab ((hbR'.trans (hroots b).symm).trans hx).symm)]
          exact (hroots b).trans hbR'.symm
        · rw [if_neg hc, hroots3 b,
            if_neg (fun hx => hab ((hbR'.trans (hroots b).symm).trans hx).symm)]
          exact (hroots b).trans hbR'.symm
      · rw [hpost]
        by_cases hc : da.smallest < db.smallest
        · rw [if_pos hc, smallestAt,
            get?_updMin_self _ da.smallest da.minimal hS3bR]
          have : min sa sb = sa := min_eq_left (le_of_lt (by
            rw [← hdaS, ← hdbS]; exact hc))
          rw [this, ← hdaS]
          rfl
        · rw [if_neg hc, smallestAt, hS3bR]
          have : min sa sb = sb := min_eq_right (by
            rw [← hdaS, ← hdbS]; exact le_of_not_lt hc)
          rw [this, ← hdbS]
          rfl
      · by_cases hc : da.smallest < db.smallest
        · refine ⟨ma, siga, ?_, ?_, ?_⟩
          · rw [hpost, if_pos hc, minimalAt,
              get?_updMin_self _ da.smallest da.minimal hS3bR, ← hdaM]
            rfl
          · rw [hsigs ma]
            exact hsiga
          · rw [hpa]
            exact (min_eq_left (le_of_lt (by
              rw [← hdaS, ← hdbS]; exact hc))).symm
        · refine ⟨mb, sigb, ?_, ?_, ?_⟩
          · rw [hpost, if_neg hc, minimalAt, hS3bR, ← hdbM]
            rfl
          · rw [hsigs mb]
            exact hsigb
          · rw [hpb]
            exact (min_eq_right (by
              rw [← hdaS, ← hdbS]; exact le_of_not_lt hc)).symm
    · -- equal depths: survivor bR (depth incremented), loser aR
      have hpost : (join s a b).1 =
          (if da.smallest < db.smallest then
            updMin (incDepth (setParent s2 aR (some bR)) bR) bR
              da.smallest da.minimal
           else incDepth (setParent s2 aR (some bR)) bR) := by
        rw [hjoin, if_neg hab, hda, hdb]
        simp only [if_neg hd1, if_neg hd2]
      obtain ⟨hWF3, hroots3⟩ := setParent_link_preserves s2 hWF2 haroot hbroot
        hab haRlt hbRlt
      have hS3bR : (incDepth (setParent s2 aR (some bR)) bR).get? bR =
          some { db with depth := db.depth + 1 } := by
        have : (setParent s2 aR (some bR)).get? bR = some db := by
          rw [get?_setParent_ne s2 (some bR) (fun hx => hab hx.symm), hdb]
        exact get?_incDepth_self _ this
      have hroots3' : ∀ j, rootD (incDepth (setParent s2 aR (some bR)) bR) j =
          if rootD s2 j = aR then bR else rootD s2 j := fun j => by
        rw [rootD_incDepth, hroots3 j]
      refine ⟨bR, Or.inr hbR', ?_, ?_, ?_, ?_⟩
      · rw [hpost]
        by_cases hc : da.smallest < db.smallest
        · rw [if_pos hc, rootD_updMin, hroots3' a, if_pos (by rw [hroots a, haR'])]
        · rw [if_neg hc, hroots3' a, if_pos (by rw [hroots a, haR'])]
      · rw [hpost]
        by_cases hc : da.smallest < db.smallest
        · rw [if_pos hc, rootD_updMin, hroots3' b,
            if_neg (fun hx => hab ((hbR'.trans (hroots b).symm).trans hx).symm)]
          exact (hroots b).trans hbR'.symm
        · rw [if_neg hc, hroots3' b,
            if_neg (fun hx => hab ((hbR'.trans (hroots b).symm).trans hx).symm)]
          exact (hroots b).trans hbR'.symm
      · rw [hpost]
        by_cases hc : da.smallest < db.smallest
        · rw [if_pos hc, smallestAt,
            get?_updMin_self _ da.smallest da.minimal hS3bR]
          have : min sa sb = sa := min_eq_left (le_of_lt (by
            rw [← hdaS, ← hdbS]; exact hc))
          rw [this, ← hdaS]
          rfl
        · rw [if_neg hc, smallestAt, hS3bR]
          have : min sa sb = sb := min_eq_right (by
            rw [← hdaS, ← hdbS]; exact le_of_not_lt hc)
          rw [this, ← hdbS]
          rfl
      · by_cases hc : da.smallest < db.smallest
        · refine ⟨ma, siga, ?_, ?_, ?_⟩
          · rw [hpost, if_pos hc, minimalAt,
              get?_updMin_self _ da.smallest da.minimal hS3bR, ← hdaM]
            rfl
          · rw [hsigs ma]
            exact hsiga
          · rw [hpa]
            exact (min_eq_left (le_of_lt (by
              rw [← hdaS, ← hdbS]; exact hc))).symm
        · refine ⟨mb, sigb, ?_, ?_, ?_⟩
          · rw [hpost, if_neg hc, minimalAt, hS3bR, ← hdbM]
            rfl
          · rw [hsigs mb]
            exact hsigb
          · rw [hpb]
            exact (min_eq_right (by
              rw [← hdaS, ← hdbS]; exact le_of_not_lt hc)).symm

theorem claim_C8_witness :
    ∃ r, (r = rootD (initUF ["c", "b"]) 0 ∨ r = rootD (initUF ["c", "b"]) 1) ∧
      rootD (join (initUF ["c", "b"]) 0 1).1 0 = r ∧
      rootD (join (initUF ["c", "b"]) 0 1).1 1 = r ∧
      smallestAt (join (initUF ["c", "b"]) 0 1).1 r = some (min 2 1) ∧
      ∃ m sigm, minimalAt (join (initUF ["c", "b"]) 0 1).1 r = some m ∧
        sigO (join (initUF ["c", "b"]) 0 1).1 m = some sigm ∧
        proxy sigm = min 2 1 :=
  @claim_C8_join_recomputes_min (initUF ["c", "b"]) (WF_initUF _) 0 1
    (by decide) (by decide) (by decide) 2 1 (by decide) (by decide)
    0 1 (by decide) (by decide) "c" "b" (by decide) (by decide)
    (by decide) (by decide)

/-- State of the `ThreadPool` from `threadpool.h`: the pending task queue
and the `stop` flag (workers and synchronisation primitives carry no
queue-related state). -/
structure ThreadPoolSt (α : Type) where
  tasks : List α
  stop : Bool
deriving Repr, DecidableEq

/-- `ThreadPool::enqueue`: under the queue lock, throw
`std::runtime_error("Called enqueue() on stopped ThreadPool")` if `stop` is
set — before the task is appended — otherwise append the task. -/
def enqueue {α : Type} (p : ThreadPoolSt α) (t : α) :
    ThreadPoolSt α × Except String Unit :=
  if p.stop then (p, Except.error "Called enqueue() on stopped ThreadPool")
  else ({ p with tasks := p.tasks ++ [t] }, Except.ok ())

/-- C9: any `enqueue` after shutdown has begun (`stop` set) raises the
explicit runtime error and leaves the task queue unchanged — the task is
never silently dropped into oblivion nor the queue mutated. -/
theorem claim_C9_enqueue_after_stop {α : Type} (p : ThreadPoolSt α) (t : α)
    (h : p.stop = true) :
    enqueue p t = (p, Except.error "Called enqueue() on stopped ThreadPool") := by
  simp [enqueue, h]

theorem claim_C9_witness :
    (⟨[1, 2], true⟩ : ThreadPoolSt Nat).stop = true ∧
      enqueue (⟨[1, 2], true⟩ : ThreadPoolSt Nat) 3 =
        (⟨[1, 2], true⟩,
          Except.error "Called enqueue() on stopped ThreadPool") :=
  ⟨rfl, claim_C9_enqueue_after_stop ⟨[1, 2], true⟩ 3 rfl⟩

/-! ## The external triangulation engine, abstracted as oracles -/

/-- Answers of the external Regina engine, the only part of its behaviour
the program consumes.  `moves32`/`moves44`/`moves23` list, in enumeration
order, the canonical signature of the (private copy of the) triangulation
after each legal 3-2 / 4-4 / 2-3 move; `simp` maps a signature to the
signature after `intelligentSimplify`; `simple` answers whether
`intelligentSimplify` made a signature's triangulation simpler; `parseOk`
is `fromIsoSig(sig) != nullptr`; `invar` evaluates invariant field `k`. -/
structure Engine where
  simple : String → Bool
  parseOk : String → Bool
  moves32 : String → List String
  moves44 : String → List String
  moves23 : String → List String
  simp : String → String
  invar : String → Nat → String

/-! ## Tokenisation and the on-disk line format -/

def isWS (c : Char) : Bool := c = ' ' || c = '\t'

def splitWSAux : List Char → List Char → List (List Char)
  | [], acc => if acc.isEmpty then [] else [acc.reverse]
  | c :: cs, acc =>
      if isWS c then
        if acc.isEmpty then splitWSAux cs []
        else acc.reverse :: splitWSAux cs []
      else splitWSAux cs (c :: acc)

/-- Whitespace tokenisation of one input line (the `l >> s` loop). -/
def tokens (line : String) : List String :=
  (splitWSAux line.data []).map (fun cs => String.mk cs)

/-- `l.str()[0] == '#' && l.str()[1] != 'q'`: a profile header line
(index 1 of a one-character `std::string` reads the terminating NUL). -/
def isHeader (line : String) : Bool :=
  match line.data with
  | '#' :: rest =>
      match rest with
      | [] => true
      | c :: _ => c != 'q'
  | _ => false

/-! ## Association maps (std::map keyed by strings) -/

def alookup {β : Type} : List (String × β) → String → Option β
  | [], _ => none
  | e :: m, k => if e.1 == k then some e.2 else alookup m k

def aset {β : Type} : List (String × β) → String → β → List (String × β)
  | [], k, v => [(k, v)]
  | e :: m, k, v => if e.1 == k then (k, v) :: m else e :: aset m k v

/-- `std::map::insert`: no-op when the key is already present. -/
def insertNew {β : Type} : List (String × β) → String → β → List (String × β)
  | [], k, v => [(k, v)]
  | e :: m, k, v => if e.1 == k then e :: m else e :: insertNew m k v

theorem alookup_aset_self {β : Type} (m : List (String × β)) (k : String)
    (v : β) : alookup (aset m k v) k = some v := by
  induction m with
  | nil => simp [aset, alookup]
  | cons e m ih =>
      by_cases he : e.1 = k
      · simp [aset, alookup, he]
      · simp only [aset, alookup, beq_iff_eq, if_neg he]
        exact ih

theorem alookup_aset_ne {β : Type} (m : List (String × β)) {k k' : String}
    (v : β) (hne : k' ≠ k) : alookup (aset m k v) k' = alookup m k' := by
  induction m with
  | nil =>
      simp only [aset, alookup, beq_iff_eq]
      rw [if_neg (fun h : k = k' => hne h.symm)]
  | cons e m ih =>
      simp only [aset, beq_iff_eq]
      by_cases he : e.1 = k
      · rw [if_pos he]
        simp only [alookup, beq_iff_eq]
        rw [if_neg (fun h : k = k' => hne h.symm),
          if_neg (by rw [he]; exact fun h : k = k' => hne h.symm)]
      · rw [if_neg he]
        simp only [alookup, beq_iff_eq]
        by_cases he' : e.1 = k'
        · rw [if_pos he', if_pos he']
        · rw [if_neg he', if_neg he', ih]

/-! ## Graphs: `std::map<std::string, Data*>` plus the arena of nodes -/

/-- A profile-scoped `Graph`: the signature-to-node map (`idx`) together
with every `Data` ever allocated for it (`arena`) — including nodes that a
failed `std::map::insert` left out of the map. -/
structure Graph where
  arena : Arena
  idx : List (String × Nat)
deriving Repr, DecidableEq

def emptyGraph : Graph := ⟨[], []⟩

def lookupIdx (g : Graph) (t : String) : Option Nat :=
  alookup g.idx t

def hasKey (g : Graph) (t : String) : Bool :=
  (lookupIdx g t).isSome

/-- Number of distinct connectivity classes among the nodes the map knows. -/
def liveClasses (g : Graph) : Nat :=
  ((g.idx.map (fun e => rootD g.arena e.2)).dedup).length

/-! ## The Record Parser: `read` -/

/-- 2^32, the modulus of the `unsigned` component counters. -/
def u32 : Nat := 4294967296

def incKey (m : List (String × Nat)) (k : String) : List (String × Nat) :=
  aset m k (((alookup m k).getD 0 + 1) % u32)

structure ReadState where
  waiting : List (String × List String)
  graphs : List (String × Graph)
  nComp : List (String × Nat)
  maxN : Int
  curP : String
deriving Repr, DecidableEq

/-- Processing of a single input line by `read`. -/
def readLine (E : Engine) (st : ReadState) (line : String) : ReadState :=
  if isHeader line then { st with curP := line }
  else
    match tokens line with
    | [] => st
    | s :: rest =>
      if s == "#q" then
        { st with waiting := (aset st.waiting st.curP
            (((alookup st.waiting st.curP).getD []) ++ rest)) }
      else
        let m1 := if st.maxN < proxy s then proxy s else st.maxN
        if E.simple s then { st with maxN := m1 }
        else
          let g0 := (alookup st.graphs st.curP).getD emptyGraph
          let dIdx := g0.arena.length
          let g1 : Graph := ⟨g0.arena ++ [mkData s dIdx], insertNew g0.idx s dIdx⟩
          let g2 := rest.foldl (fun g t =>
            let eIdx := g.arena.length
            let ar1 := g.arena ++ [mkData t eIdx]
            (⟨(join ar1 dIdx eIdx).1, insertNew g.idx t eIdx⟩ : Graph)) g1
          { st with maxN := m1,
                    graphs := aset st.graphs st.curP g2,
                    nComp := incKey st.nComp st.curP }

def initRead : ReadState := ⟨[], [], [], 0, "#"⟩

/-- `int read(...)`: fold the lines, producing the profile-scoped graphs,
the pending lists, the component counts, and the running maximum. -/
def readFile (E : Engine) (lines : List String) : ReadState :=
  lines.foldl (readLine E) initRead

/-- An engine whose simplification test never fires (no signature ever
simplifies), with no legal moves. -/
def neverSimpleEngine : Engine :=
  ⟨fun _ => false, fun _ => true, fun _ => [], fun _ => [], fun _ => [],
    id, fun _ _ => ""⟩

/-- An engine reporting that exactly the signature `"c"` simplifies to
something strictly simpler. -/
def simpleCEngine : Engine :=
  ⟨fun s => s == "c", fun _ => true, fun _ => [], fun _ => [], fun _ => [],
    id, fun _ _ => ""⟩

/-- The first token of a data line (none for header lines, blank lines and
pending-queue lines): exactly the tokens whose proxy `read` folds into its
running maximum. -/
def firstDataToken (line : String) : Option String :=
  if isHeader line then none
  else
    match tokens line with
    | [] => none
    | s :: _ => if s == "#q" then none else some s

def dataFirstTokens (lines : List String) : List String :=
  lines.filterMap firstDataToken

theorem if_lt_eq_max (m v : Int) : (if m < v then v else m) = max m v := by
  rcases lt_or_ge m v with h | h
  · rw [if_pos h, max_eq_right h.le]
  · rw [if_neg (not_lt.2 h), max_eq_left h]

theorem readLine_maxN (E : Engine) (st : ReadState) (line : String) :
    (readLine E st line).maxN =
      (match firstDataToken line with
       | none => st.maxN
       | some s => max st.maxN (proxy s)) := by
  unfold readLine firstDataToken
  by_cases hh : isHeader line = true
  · rw [if_pos hh, if_pos hh]
  · rw [if_neg hh, if_neg hh]
    cases htok : tokens line with
    | nil => rfl
    | cons s rest =>
        dsimp only
        by_cases hq : (s == "#q") = true
        · rw [if_pos hq, if_pos hq]
        · rw [if_neg hq, if_neg hq]
          by_cases hsim : E.simple s = true
          · rw [if_pos hsim]
            exact if_lt_eq_max st.maxN (proxy s)
          · rw [if_neg hsim]
            exact if_lt_eq_max st.maxN (proxy s)

theorem readFold_maxN (E : Engine) (lines : List String) :
    ∀ st : ReadState, (lines.foldl (readLine E) st).maxN =
      (dataFirstTokens lines).foldl (fun m s => max m (proxy s)) st.maxN := by
  induction lines with
  | nil => intro st; rfl
  | cons line lines ih =>
      intro st
      rw [List.foldl_cons, ih (readLine E st line)]
      simp only [dataFirstTokens, List.filterMap_cons]
      cases hf : firstDataToken line with
      | none =>
          have hm := readLine_maxN E st line
          rw [hf] at hm
          rw [hm]
      | some s =>
          have hm := readLine_maxN E st line
          rw [hf] at hm
          rw [List.foldl_cons, hm]

/-- C4 (amended): `read` returns the maximum, over the first token of every
data line — *including* tokens dropped by the simplification test and
*excluding* the remaining member tokens of each line — of the complexity
proxy, folded from the initial value 0. -/
theorem claim_C4_read_max_over_first_tokens (E : Engine) (lines : List String) :
    (readFile E lines).maxN =
      (dataFirstTokens lines).foldl (fun m s => max m (proxy s)) 0 :=
  readFold_maxN E lines initRead

/-- C4 counterexample: on the single data line `"b c"` (no signature
simplifies) both `b` and `c` are kept as Nodes, so the claimed maximum over
kept signatures is 2, but `read` returns 1 — it never looks at the member
token `c`. -/
theorem claim_C4_counterexample :
    (readFile neverSimpleEngine ["b c"]).maxN = 1 ∧
      (alookup (readFile neverSimpleEngine ["b c"]).graphs "#").map
          (fun g => g.idx.map Prod.fst) = some ["b", "c"] ∧
      (["b", "c"].map proxy).foldl (fun m v => max m v) 0 = 2 ∧
      (1 : Int) ≠ 2 := by
  decide

theorem alookup_insertNew_isSome {β : Type} (m : List (String × β))
    (k : String) (v : β) (t : String) :
    (alookup (insertNew m k v) t).isSome = true ↔
      ((alookup m t).isSome = true ∨ t = k) := by
  induction m with
  | nil =>
      simp only [insertNew, alookup, beq_iff_eq]
      by_cases ht : k = t
      · rw [if_pos ht]
        simp [ht.symm]
      · rw [if_neg ht]
        simp [Ne.symm ht]
  | cons e m ih =>
      simp only [insertNew, beq_iff_eq]
      by_cases he : e.1 = k
      · rw [if_pos he]
        simp only [alookup, beq_iff_eq]
        by_cases ht : e.1 = t
        · rw [if_pos ht]
          simp
        · rw [if_neg ht]
          constructor
          · exact fun h => Or.inl h
          · rintro (h | rfl)
            · exact h
            · exact absurd he ht
      · rw [if_neg he]
        simp only [alookup, beq_iff_eq]
        by_cases ht : e.1 = t
        · rw [if_pos ht, if_pos ht]
          simp
        · rw [if_neg ht, if_neg ht]
          exact ih

theorem foldl_member_keys (dIdx : Nat) (rest : List String) :
    ∀ (g : Graph) (t : String),
      (alookup (rest.foldl (fun g t =>
        let eIdx := g.arena.length
        let ar1 := g.arena ++ [mkData t eIdx]
        (⟨(join ar1 dIdx eIdx).1, insertNew g.idx t eIdx⟩ : Graph)) g).idx
          t).isSome = true ↔
      ((alookup g.idx t).isSome = true ∨ t ∈ rest) := by
  induction rest with
  | nil => intro g t; simp
  | cons r rest ih =>
      intro g t
      rw [List.foldl_cons, ih]
      dsimp only
      rw [alookup_insertNew_isSome, List.mem_cons]
      tauto

/-- C5 (corrected): only the *first* token of a data line is subjected to the
simplification test — if it simplifies, the whole line is dropped; otherwise
the first token and every remaining member token become keys of the current
profile's Graph, the member tokens without any engine consultation. -/
theorem claim_C5_only_first_token_tested (E : Engine) (st : ReadState)
    (line : String) (hh : isHeader line = false)
    {s : String} {rest : List String} (htok : tokens line = s :: rest)
    (hq : (s == "#q") = false) :
    (E.simple s = true → (readLine E st line).graphs = st.graphs) ∧
    (E.simple s = false → ∀ t,
      hasKey ((alookup (readLine E st line).graphs st.curP).getD emptyGraph)
          t = true ↔
        (hasKey ((alookup st.graphs st.curP).getD emptyGraph) t = true ∨
          t = s ∨ t ∈ rest)) := by
  unfold readLine
  rw [if_neg (by simp [hh]), htok]
  dsimp only
  rw [if_neg (by simp [hq])]
  constructor
  · intro hsim
    rw [if_pos hsim]
  · intro hsim t
    rw [if_neg (by simp [hsim])]
    dsimp only
    rw [alookup_aset_self]
    unfold hasKey lookupIdx
    simp only [Option.getD_some]
    rw [foldl_member_keys]
    dsimp only
    rw [alookup_insertNew_isSome]
    tauto

theorem claim_C5_witness :
    hasKey ((alookup (readLine simpleCEngine initRead "b c").graphs
        initRead.curP).getD emptyGraph) "c" = true ↔
      (hasKey ((alookup initRead.graphs initRead.curP).getD emptyGraph)
          "c" = true ∨ "c" = "b" ∨ "c" ∈ ["c"]) :=
  (@claim_C5_only_first_token_tested simpleCEngine initRead "b c" (by decide)
      "b" ["c"] (by decide) (by decide)).2 (by decide) "c"

/-- C5 counterexample: on the data line `"b c"` with an engine reporting
that `"c"` simplifies to something strictly simpler, a Node keyed `"c"` is
created anyway — member tokens are inserted without the simplification
test, contradicting the claim that every inserted signature is tested and
dropped when it simplifies. -/
theorem claim_C5_counterexample :
    simpleCEngine.simple "c" = true ∧
      (alookup (readFile simpleCEngine ["b c"]).graphs "#").map
        (fun g => g.idx.map Prod.fst) = some ["b", "c"] := by
  decide

/-! ## The Pachner Explorer: `process` and the loop in `pachner` -/

/-- `--nComp[prof]` on an `unsigned` counter (`operator[]` default-inserts
0; decrementing wraps modulo 2^32). -/
def decKey (m : List (String × Nat)) (k : String) : List (String × Nat) :=
  aset m k (((alookup m k).getD 0 + u32 - 1) % u32)

/-- The state a single `process` call threads through its three move loops:
the graph, the work queue, `process`'s *by-value copy* of the component
table, and the local `shrunk` flag. -/
structure PStep where
  g : Graph
  q : List (Option Nat)
  nCompL : List (String × Nat)
  shrunk : Bool
deriving Repr, DecidableEq

/-- Handling of one legal move candidate whose resulting signature is
`next`: record a shrink when its proxy beats the file-wide maximum, then
either create + enqueue + join a fresh node, or join with the existing node
and decrement the local component copy when the join really merged. -/
def doCandidate (prof : String) (maxN : Int) (pIdx : Nat)
    (a : PStep) (next : String) : PStep :=
  let shrunk := if proxy next < maxN then true else a.shrunk
  match lookupIdx a.g next with
  | none =>
      let eIdx := a.g.arena.length
      let ar1 := a.g.arena ++ [mkData next eIdx]
      { g := ⟨(join ar1 pIdx eIdx).1, insertNew a.g.idx next eIdx⟩,
        q := a.q ++ [some eIdx], nCompL := a.nCompL, shrunk := shrunk }
  | some eIdx =>
      let jr := join a.g.arena pIdx eIdx
      { g := ⟨jr.1, a.g.idx⟩, q := a.q,
        nCompL := if jr.2 then decKey a.nCompL prof else a.nCompL,
        shrunk := shrunk }

/-- Explorer state: current graph, work queue (`none` is the `g.end()`
sentinel), the profile-indexed component table `pachner` holds (which
`process` receives only by value), and a trace of the signatures `process`
was called on (pure observation, influencing nothing). -/
structure PachSt where
  g : Graph
  q : List (Option Nat)
  nComp : List (String × Nat)
  log : List String
deriving Repr, DecidableEq

def sigAt (st : PachSt) (i : Nat) : String :=
  ((st.g.arena.get? i).map Data.sig).getD ""

/-- The three move-family loops of `process`: 3-2 and 4-4 candidates are
simplified before their signature is derived (`alt.intelligentSimplify()`
precedes `alt.isoSig()`); the 2-3 loop derives the signature of the raw
copy. -/
def processScan (E : Engine) (prof : String) (maxN : Int) (pIdx : Nat)
    (st : PachSt) : PStep :=
  let a0 : PStep := ⟨st.g, st.q, st.nComp, false⟩
  let a1 := ((E.moves32 (sigAt st pIdx)).map E.simp).foldl
    (doCandidate prof maxN pIdx) a0
  let a2 := ((E.moves44 (sigAt st pIdx)).map E.simp).foldl
    (doCandidate prof maxN pIdx) a1
  (E.moves23 (sigAt st pIdx)).foldl (doCandidate prof maxN pIdx) a2

/-- `bool process(...)`: returns `false` (stop exploring) iff the engine
parsed the signature, a shrink was seen during *this* call, and this call's
by-value component copy reached exactly 1 for the profile.  The copy is
discarded: only `g` and `q` flow back into the caller's state. -/
def processStep (E : Engine) (prof : String) (maxN : Int) (pIdx : Nat)
    (st : PachSt) : PachSt × Bool :=
  if E.parseOk (sigAt st pIdx) = false then
    ({ st with log := st.log ++ [sigAt st pIdx] }, true)
  else
    let a3 := processScan E prof maxN pIdx st
    ({ st with g := a3.g, q := a3.q, log := st.log ++ [sigAt st pIdx] },
      if a3.shrunk && ((alookup a3.nCompL prof).getD 0 == 1) then false
      else true)

/-- The inner `while (q.front() != g.end() && keepGoing)` loop of `pachner`:
process the queue front, pop it, until the sentinel is at the front or a
`process` call returned `false`.  The fuel is the number of entries in the
current generation. -/
def whileLoop (E : Engine) (prof : String) (maxN : Int) :
    Nat → PachSt → PachSt × Bool
  | 0, st => (st, true)
  | fuel + 1, st =>
      match st.q with
      | [] => (st, true)
      | none :: _ => (st, true)
      | some i :: rest =>
          let pr := processStep E prof maxN i { st with q := rest }
          if pr.2 then whileLoop E prof maxN fuel pr.1
          else (pr.1, false)

/-- The `for (int i = 0; i < levels && keepGoing; ++i)` loop: push the
sentinel, drain the generation (or stop early), pop once, recurse while
`keepGoing`. -/
def runLevels (E : Engine) (prof : String) (maxN : Int) :
    Nat → PachSt → PachSt
  | 0, st => st
  | l + 1, st =>
      let gcount := st.q.length
      let pr := whileLoop E prof maxN gcount { st with q := st.q ++ [none] }
      let st2 := { pr.1 with q := pr.1.q.drop 1 }
      if pr.2 then runLevels E prof maxN l st2 else st2

/-- Byte-wise lexicographic comparison of the character lists of two
strings — the `std::string` ordering that keys every `std::map` here. -/
def charListLe : List Char → List Char → Bool
  | [], _ => true
  | _ :: _, [] => false
  | a :: as, b :: bs =>
      if a.toNat < b.toNat then true
      else if b.toNat < a.toNat then false
      else charListLe as bs

def strLe (a b : String) : Bool :=
  charListLe a.data b.data

def insertByKey {β : Type} (e : String × β) :
    List (String × β) → List (String × β)
  | [] => [e]
  | x :: xs => if strLe e.1 x.1 then e :: x :: xs else x :: insertByKey e xs

/-- Sort map entries by key (stable insertion sort), matching `std::map` /
`std::multimap` iteration order. -/
def sortByKey {β : Type} (m : List (String × β)) : List (String × β) :=
  m.foldr insertByKey []

/-- Queue seeding in `pachner`: everything in the graph when no pending
list is known, otherwise exactly the pending signatures present in the
graph. -/
def seedQueue (g : Graph) (waiting : Option (List String)) :
    List (Option Nat) :=
  match waiting with
  | none => (sortByKey g.idx).map (fun e => some e.2)
  | some ws => ws.filterMap (fun s => (lookupIdx g s).map some)

/-- Exploration of one profile-scoped graph inside `pachner`. -/
def exploreGraph (E : Engine) (levels : Nat) (maxN : Int) (rd : ReadState)
    (p : String) (g : Graph) : PachSt :=
  runLevels E p maxN levels ⟨g, seedQueue g (alookup rd.waiting p), rd.nComp, []⟩

/-- `void pachner(...)` up to the output writing: read the file, then
explore every profile-scoped graph. -/
def pachnerRun (E : Engine) (lines : List String) (levels : Nat) :
    List (String × PachSt) :=
  let rd := readFile E lines
  (sortByKey rd.graphs).map (fun e => (e.1, exploreGraph E levels rd.maxN rd e.1 e.2))

/-- Engine for which the only legal move is one 2-3 move from `"b"`,
yielding `"c"`. -/
def mergeEngine : Engine :=
  ⟨fun _ => false, fun _ => true, fun _ => [], fun _ => [],
    fun s => if s = "b" then ["c"] else [], id, fun _ _ => ""⟩

/-- Engine with a 3-2 move on `"b"` landing back on `"b"` (a shrink below
the file-wide maximum 2) and a 2-3 move from `"b"` to `"c"`. -/
def shrinkEngine : Engine :=
  ⟨fun _ => false, fun _ => true, fun s => if s = "b" then ["b"] else [],
    fun _ => [], fun s => if s = "b" then ["c"] else [], id, fun _ _ => ""⟩

/-- Engine with one 2-3 move from `"b"` producing `"c"`, whose
simplification maps `"c"` back to `"b"`. -/
def grow23Engine : Engine :=
  ⟨fun _ => false, fun _ => true, fun _ => [], fun _ => [],
    fun s => if s = "b" then ["c"] else [],
    fun s => if s = "c" then "b" else s, fun _ _ => ""⟩

/-- C2, evaluation at the failing input: the file `b` / `c` (two classes,
stored count 2) under an engine with a 2-3 move `b → c`.  Exploration
merges the two classes (one live class remains), both nodes are processed,
yet the stored component table still says 2: `process` received the table
by value and its decrement was discarded. -/
theorem claim_C2_count_never_decremented :
    (pachnerRun mergeEngine ["b", "c"] 1).map
        (fun e => (e.1, alookup e.2.nComp "#", liveClasses e.2.g, e.2.log)) =
      [("#", some 2, 1, ["b", "c"])] := by
  decide

/-- C3 counterexample: file `b` / `c`, `levels = 2`, engine `shrinkEngine`.
The first generation is seeded with both nodes, but the Explorer stops
right after processing `b` (whose call shrank and drove its private count
copy to 1): `c` — part of the same, not yet drained generation — is never
processed, refuting "stops ... only at a generation boundary (after the
current generation has fully drained)". -/
theorem claim_C3_counterexample :
    (pachnerRun shrinkEngine ["b", "c"] 2).map (fun e => (e.1, e.2.log)) =
        [("#", ["b"])] ∧
      seedQueue ((alookup (readFile shrinkEngine ["b", "c"]).graphs "#").getD
          emptyGraph) none = [some 0, some 1] ∧
      (alookup (readFile shrinkEngine ["b", "c"]).graphs "#").map
          (fun g => g.idx.map Prod.fst) = some ["b", "c"] := by
  decide

/-- C6 counterexample: the Explorer records the *unsimplified* signature
`"c"` of a 2-3 move result as a graph key, although the engine simplifies
`"c"` to `"b"` — the 2-3 family skips the `intelligentSimplify` call that
the other two families make before deriving the signature. -/
theorem claim_C6_counterexample :
    grow23Engine.simp "c" = "b" ∧
      (pachnerRun grow23Engine ["b"] 1).map
          (fun e => (e.1, e.2.g.idx.map Prod.fst)) = [("#", ["b", "c"])] := by
  decide

theorem processStep_log (E : Engine) (prof : String) (maxN : Int) (i : Nat)
    (st : PachSt) :
    (processStep E prof maxN i st).1.log = st.log ++ [sigAt st i] := by
  unfold processStep
  by_cases hp : E.parseOk (sigAt st i) = false
  · rw [if_pos hp]
  · rw [if_neg hp]

theorem foldl_doCandidate_q_ext (prof : String) (maxN : Int) (p : Nat) :
    ∀ (l : List String) (a : PStep),
      ∃ tail, (l.foldl (doCandidate prof maxN p) a).q = a.q ++ tail := by
  intro l
  induction l with
  | nil => intro a; exact ⟨[], by simp⟩
  | cons x l ih =>
      intro a
      rw [List.foldl_cons]
      obtain ⟨tail, htail⟩ := ih (doCandidate prof maxN p a x)
      rw [htail]
      unfold doCandidate
      cases lookupIdx a.g x with
      | none => exact ⟨[some a.g.arena.length] ++ tail, by simp⟩
      | some e => exact ⟨tail, by simp⟩

theorem processStep_q_ext (E : Engine) (prof : String) (maxN : Int) (i : Nat)
    (st : PachSt) :
    ∃ tail, (processStep E prof maxN i st).1.q = st.q ++ tail := by
  unfold processStep
  by_cases hp : E.parseOk (sigAt st i) = false
  · rw [if_pos hp]
    exact ⟨[], by simp⟩
  · rw [if_neg hp]
    unfold processScan
    obtain ⟨t1, h1⟩ := foldl_doCandidate_q_ext prof maxN i
      ((E.moves32 (sigAt st i)).map E.simp) ⟨st.g, st.q, st.nComp, false⟩
    obtain ⟨t2, h2⟩ := foldl_doCandidate_q_ext prof maxN i
      ((E.moves44 (sigAt st i)).map E.simp) _
    obtain ⟨t3, h3⟩ := foldl_doCandidate_q_ext prof maxN i
      (E.moves23 (sigAt st i)) _
    refine ⟨t1 ++ t2 ++ t3, ?_⟩
    dsimp only
    rw [h3, h2, h1]
    simp [List.append_assoc]

/-- One `process` call returns `false` (stop) exactly when the parse
succeeded, the call's local `shrunk` flag was raised, and the call's
by-value copy of the component table reads exactly 1 for the profile. -/
theorem processStep_stop_iff (E : Engine) (prof : String) (maxN : Int)
    (i : Nat) (st : PachSt) :
    (processStep E prof maxN i st).2 = false ↔
      (E.parseOk (sigAt st i) = true ∧
        (processScan E prof maxN i st).shrunk = true ∧
        (alookup (processScan E prof maxN i st).nCompL prof).getD 0 = 1) := by
  unfold processStep
  by_cases hp : E.parseOk (sigAt st i) = false
  · rw [if_pos hp]
    simp [hp]
  · rw [if_neg hp]
    have hp' : E.parseOk (sigAt st i) = true := by
      cases h : E.parseOk (sigAt st i) with
      | false => exact absurd h hp
      | true => rfl
    simp only [hp', true_and]
    by_cases hs : (processScan E prof maxN i st).shrunk = true
    · by_cases hc :
        (alookup (processScan E prof maxN i st).nCompL prof).getD 0 = 1
      · simp [hs, hc]
      · simp [hs, hc]
    · simp [hs]

/-- Behaviour of the inner loop on one generation (queue = the generation's
entries, then the sentinel, then the already-enqueued next generation): if
every `process` call keeps going, exactly the whole generation is processed;
if some call stops, only a strict prefix is processed and the rest of the
generation is abandoned behind in the queue. -/
theorem whileLoop_gen (E : Engine) (prof : String) (maxN : Int) :
    ∀ (gen : List Nat) (st : PachSt) (back : List (Option Nat)),
      st.q = List.map some gen ++ none :: back →
      (((whileLoop E prof maxN gen.length st).2 = true →
          (whileLoop E prof maxN gen.length st).1.log.length =
            st.log.length + gen.length) ∧
        ((whileLoop E prof maxN gen.length st).2 = false →
          ∃ k back2, k < gen.length ∧
            (whileLoop E prof maxN gen.length st).1.log.length =
              st.log.length + (k + 1) ∧
            (whileLoop E prof maxN gen.length st).1.q =
              List.map some (gen.drop (k + 1)) ++ none :: back2)) := by
  intro gen
  induction gen with
  | nil =>
      intro st back hq
      constructor
      · intro _
        simp [whileLoop]
      · intro hfalse
        rw [show whileLoop E prof maxN [].length st = (st, true) from rfl]
          at hfalse
        exact Bool.noConfusion hfalse
  | cons i gen ih =>
      intro st back hq
      have hq' : st.q = some i :: (List.map some gen ++ none :: back) := by
        simpa using hq
      have hstep : whileLoop E prof maxN (i :: gen).length st =
          (let pr := processStep E prof maxN i
            { st with q := List.map some gen ++ none :: back }
           if pr.2 then whileLoop E prof maxN gen.length pr.1
           else (pr.1, false)) := by
        show whileLoop E prof maxN (gen.length + 1) st = _
        rw [whileLoop, hq']
      set st' : PachSt := { st with q := List.map some gen ++ none :: back }
        with hst'
      set pr := processStep E prof maxN i st' with hpr
      obtain ⟨tail, htail⟩ := processStep_q_ext E prof maxN i st'
      have hq2 : pr.1.q = List.map some gen ++ none :: (back ++ tail) := by
        rw [← hpr] at htail
        rw [htail]
        show (List.map some gen ++ none :: back) ++ tail = _
        simp [List.append_assoc]
      have hlog1 : pr.1.log = st.log ++ [sigAt st' i] := by
        rw [hpr]
        exact processStep_log E prof maxN i st'
      cases hkeep : pr.2 with
      | true =>
          have hloop : whileLoop E prof maxN (i :: gen).length st =
              whileLoop E prof maxN gen.length pr.1 := by
            rw [hstep]
            dsimp only
            rw [if_pos hkeep]
          obtain ⟨ihT, ihF⟩ := ih pr.1 (back ++ tail) hq2
          constructor
          · intro htrue
            rw [hloop] at htrue ⊢
            rw [ihT htrue, hlog1]
            simp only [List.length_append, List.length_cons, List.length_nil]
            omega
          · intro hfalse
            rw [hloop] at hfalse ⊢
            obtain ⟨k, back2, hk, hlen, hq3⟩ := ihF hfalse
            refine ⟨k + 1, back2, by simpa using Nat.succ_lt_succ hk, ?_, ?_⟩
            · rw [hlen, hlog1]
              simp only [List.length_append, List.length_cons, List.length_nil]
              omega
            · rw [hq3]
              rfl
      | false =>
          have hloop : whileLoop E prof maxN (i :: gen).length st =
              (pr.1, false) := by
            rw [hstep]
            dsimp only
            rw [if_neg (by simp [hkeep])]
          constructor
          · intro htrue
            rw [hloop] at htrue
            exact Bool.noConfusion htrue
          · intro _
            refine ⟨0, back ++ tail, Nat.succ_pos _, ?_, ?_⟩
            · rw [hloop, hlog1]
              simp
            · rw [hloop, hq2]
              rfl

/-- C3 (corrected): the Explorer stops before the `levels` bound immediately
after the first `process` call that returns `false` — such a call is exactly
one whose signature parsed, that observed a shrink during *its own* move
enumeration, and whose *by-value copy* of the component table (seeded from
the caller's, decremented only within the call) reached exactly 1 for this
profile.  The stop can fall in the middle of a generation: the processed
entries are then a strict prefix and the rest of the generation is left
unprocessed; only when every call keeps going does a generation fully
drain. -/
theorem claim_C3_stop_rule :
    (∀ (E : Engine) (prof : String) (maxN : Int) (i : Nat) (st : PachSt),
      (processStep E prof maxN i st).2 = false ↔
        (E.parseOk (sigAt st i) = true ∧
          (processScan E prof maxN i st).shrunk = true ∧
          (alookup (processScan E prof maxN i st).nCompL prof).getD 0 = 1)) ∧
    (∀ (E : Engine) (prof : String) (maxN : Int) (gen : List Nat)
        (st : PachSt) (back : List (Option Nat)),
      st.q = List.map some gen ++ none :: back →
      (((whileLoop E prof maxN gen.length st).2 = true →
          (whileLoop E prof maxN gen.length st).1.log.length =
            st.log.length + gen.length) ∧
        ((whileLoop E prof maxN gen.length st).2 = false →
          ∃ k back2, k < gen.length ∧
            (whileLoop E prof maxN gen.length st).1.log.length =
              st.log.length + (k + 1) ∧
            (whileLoop E prof maxN gen.length st).1.q =
              List.map some (gen.drop (k + 1)) ++ none :: back2))) :=
  ⟨processStep_stop_iff, whileLoop_gen⟩

theorem claim_C3_witness :
    (whileLoop shrinkEngine "#" 2 ([0, 1].length)
        ⟨⟨[mkData "b" 0, mkData "c" 1], [("b", 0), ("c", 1)]⟩,
          [some 0, some 1, none], [("#", 2)], []⟩).2 = false ∧
      ∃ k back2, k < [0, 1].length ∧
        (whileLoop shrinkEngine "#" 2 ([0, 1].length)
            ⟨⟨[mkData "b" 0, mkData "c" 1], [("b", 0), ("c", 1)]⟩,
              [some 0, some 1, none], [("#", 2)], []⟩).1.log.length =
          ([] : List String).length + (k + 1) ∧
        (whileLoop shrinkEngine "#" 2 ([0, 1].length)
            ⟨⟨[mkData "b" 0, mkData "c" 1], [("b", 0), ("c", 1)]⟩,
              [some 0, some 1, none], [("#", 2)], []⟩).1.q =
          List.map some ([0, 1].drop (k + 1)) ++ none :: back2 :=
  ⟨by decide,
    (claim_C3_stop_rule.2 shrinkEngine "#" 2 [0, 1]
      ⟨⟨[mkData "b" 0, mkData "c" 1], [("b", 0), ("c", 1)]⟩,
        [some 0, some 1, none], [("#", 2)], []⟩ [] rfl).2 (by decide)⟩

/-- The resulting signatures `process` derives for the legal candidates of
one node, in enumeration order: 3-2 and 4-4 results pass through the
engine's simplification before serialisation, 2-3 results do not. -/
def candidateSigs (E : Engine) (sig : String) : List String :=
  (E.moves32 sig).map E.simp ++ (E.moves44 sig).map E.simp ++ E.moves23 sig

theorem processScan_as_fold (E : Engine) (prof : String) (maxN : Int)
    (i : Nat) (st : PachSt) :
    processScan E prof maxN i st =
      (candidateSigs E (sigAt st i)).foldl (doCandidate prof maxN i)
        ⟨st.g, st.q, st.nComp, false⟩ := by
  unfold processScan candidateSigs
  rw [List.foldl_append, List.foldl_append]

theorem doCandidate_hasKey (prof : String) (maxN : Int) (p : Nat)
    (a : PStep) (next t : String) :
    hasKey (doCandidate prof maxN p a next).g t = true ↔
      (hasKey a.g t = true ∨ t = next) := by
  unfold doCandidate
  cases hl : lookupIdx a.g next with
  | none =>
      dsimp only
      unfold hasKey lookupIdx
      rw [alookup_insertNew_isSome]
  | some e =>
      dsimp only
      constructor
      · intro h
        exact Or.inl h
      · rintro (h | rfl)
        · exact h
        · unfold hasKey lookupIdx
          dsimp only
          have hl' : alookup a.g.idx t = some e := hl
          rw [hl']
          rfl

theorem foldl_doCandidate_hasKey (prof : String) (maxN : Int) (p : Nat) :
    ∀ (l : List String) (a : PStep) (t : String),
      hasKey ((l.foldl (doCandidate prof maxN p) a).g) t = true ↔
        (hasKey a.g t = true ∨ t ∈ l) := by
  intro l
  induction l with
  | nil => intro a t; simp
  | cons x l ih =>
      intro a t
      rw [List.foldl_cons, ih, doCandidate_hasKey, List.mem_cons]
      tauto

theorem doCandidate_shrunk (prof : String) (maxN : Int) (p : Nat)
    (a : PStep) (next : String) :
    (doCandidate prof maxN p a next).shrunk =
      (a.shrunk || decide (proxy next < maxN)) := by
  unfold doCandidate
  cases lookupIdx a.g next with
  | none =>
      dsimp only
      by_cases hc : proxy next < maxN
      · simp [hc]
      · simp [hc]
  | some e =>
      dsimp only
      by_cases hc : proxy next < maxN
      · simp [hc]
      · simp [hc]

theorem foldl_doCandidate_shrunk (prof : String) (maxN : Int) (p : Nat) :
    ∀ (l : List String) (a : PStep),
      (l.foldl (doCandidate prof maxN p) a).shrunk =
        (a.shrunk || l.any (fun m => decide (proxy m < maxN))) := by
  intro l
  induction l with
  | nil => intro a; simp
  | cons x l ih =>
      intro a
      rw [List.foldl_cons, ih, doCandidate_shrunk, List.any_cons]
      cases a.shrunk <;> simp

/-- C6 (corrected): for every legal candidate, the Explorer derives the
resulting signature from a private copy — simplified first for the 3-2 and
4-4 families but *not* for the 2-3 family — and uses exactly these
signatures for graph lookup/insertion/union and for the shrink comparison:
after a `process` call the graph's keys are the old keys plus the candidate
signatures, and the call's `shrunk` flag is set exactly when some candidate
signature's proxy is below the file-wide maximum. -/
theorem claim_C6_candidate_signatures (E : Engine) (prof : String)
    (maxN : Int) (i : Nat) (st : PachSt)
    (hp : E.parseOk (sigAt st i) = true) :
    (∀ t, hasKey (processStep E prof maxN i st).1.g t = true ↔
      (hasKey st.g t = true ∨ t ∈ candidateSigs E (sigAt st i))) ∧
    (processScan E prof maxN i st).shrunk =
      (candidateSigs E (sigAt st i)).any (fun m => decide (proxy m < maxN)) := by
  have hscan := processScan_as_fold E prof maxN i st
  constructor
  · intro t
    have hg : (processStep E prof maxN i st).1.g =
        (processScan E prof maxN i st).g := by
      unfold processStep
      rw [if_neg (by simp [hp])]
    rw [hg, hscan, foldl_doCandidate_hasKey]
  · rw [hscan, foldl_doCandidate_shrunk]
    simp

theorem claim_C6_witness :
    grow23Engine.parseOk
        (sigAt ⟨⟨[mkData "b" 0], [("b", 0)]⟩, [], [("#", 1)], []⟩ 0) = true ∧
      (hasKey (processStep grow23Engine "#" 1 0
          ⟨⟨[mkData "b" 0], [("b", 0)]⟩, [], [("#", 1)], []⟩).1.g "c" = true ↔
        (hasKey (⟨[mkData "b" 0], [("b", 0)]⟩ : Graph) "c" = true ∨
          "c" ∈ candidateSigs grow23Engine
            (sigAt ⟨⟨[mkData "b" 0], [("b", 0)]⟩, [], [("#", 1)], []⟩ 0))) :=
  ⟨by decide,
    (claim_C6_candidate_signatures grow23Engine "#" 1 0
      ⟨⟨[mkData "b" 0], [("b", 0)]⟩, [], [("#", 1)], []⟩ (by decide)).1 "c"⟩

/-! ## `dump_pachner`: the Explorer's output filter -/

/-- One iteration of the comps-building loop of `dump_pachner`: skip keys
with proxy above the file-wide maximum; otherwise find (and compress) the
node's root and, when the root's `smallest` equals the maximum, record the
pair (root signature, key). -/
def dumpPachStep (maxN : Int) (acc : Arena × List (String × String))
    (e : String × Nat) : Arena × List (String × String) :=
  if maxN < proxy e.1 then acc
  else
    let r1 := root acc.1 e.2
    if ((r1.1.get? r1.2).map Data.smallest).getD 0 = maxN then
      let r2 := root r1.1 e.2
      (r2.1, acc.2 ++ [(((r2.1.get? r2.2).map Data.sig).getD "", e.1)])
    else (r1.1, acc.2)

/-- The comps multimap built by `dump_pachner` (pairs root-signature ↦
member signature, before the grouped printing), together with the arena as
mutated by the compressing `root` calls. -/
def dump_pachner (g : Graph) (maxN : Int) :
    Arena × List (String × String) :=
  (sortByKey g.idx).foldl (dumpPachStep maxN) (g.arena, [])

theorem insertByKey_perm {β : Type} (e : String × β)
    (l : List (String × β)) : (insertByKey e l).Perm (e :: l) := by
  induction l with
  | nil => exact List.Perm.refl _
  | cons x xs ih =>
      unfold insertByKey
      by_cases hc : strLe e.1 x.1 = true
      · rw [if_pos hc]
      · rw [if_neg hc]
        exact (ih.cons x).trans (List.Perm.swap e x xs)

theorem sortByKey_perm {β : Type} (m : List (String × β)) :
    (sortByKey m).Perm m := by
  induction m with
  | nil => exact List.Perm.refl _
  | cons e m ih =>
      unfold sortByKey
      rw [List.foldr_cons]
      exact (insertByKey_perm _ _).trans (ih.cons e)

theorem eq_of_fst_eq_of_nodup_keys {β : Type} :
    ∀ (m : List (String × β)), (m.map Prod.fst).Nodup →
      ∀ {a b : String × β}, a ∈ m → b ∈ m → a.1 = b.1 → a = b := by
  intro m
  induction m with
  | nil => intro _ a b ha; exact absurd ha (List.not_mem_nil a)
  | cons e m ih =>
      intro hnd a b ha hb hab
      rw [List.map_cons, List.nodup_cons] at hnd
      rcases List.mem_cons.1 ha with rfl | ha' <;>
        rcases List.mem_cons.1 hb with rfl | hb'
      · rfl
      · exact absurd (hab ▸ List.mem_map_of_mem Prod.fst hb') hnd.1
      · exact absurd (hab ▸ List.mem_map_of_mem Prod.fst ha') hnd.1
      · exact ih hnd.2 ha' hb' hab

/-- Invariant of the `dump_pachner` fold: the arena keeps its length,
roots and non-parent fields (the `root` calls only compress), and the
emitted pairs are exactly the kept entries of the processed prefix. -/
theorem dumpPach_fold (maxN : Int) :
    ∀ (L : List (String × Nat)) (ar : Arena) (out : List (String × String)),
      WF ar → (∀ e ∈ L, e.2 < ar.length) →
      WF (L.foldl (dumpPachStep maxN) (ar, out)).1 ∧
      (L.foldl (dumpPachStep maxN) (ar, out)).2 =
        out ++ (L.filter (fun e => decide (proxy e.1 ≤ maxN) &&
            (((ar.get? (rootD ar e.2)).map Data.smallest).getD 0 == maxN))).map
          (fun e => (((ar.get? (rootD ar e.2)).map Data.sig).getD "", e.1)) := by
  intro L
  induction L with
  | nil => intro ar out hWF _; exact ⟨hWF, by simp⟩
  | cons e L ih =>
      intro ar out hWF hrange
      have he : e.2 < ar.length := hrange e (List.mem_cons_self e L)
      rw [List.foldl_cons]
      obtain ⟨hr2, hWF1, hroots1, hlen1, hfld1⟩ := root_preserves ar hWF e.2
      by_cases hskip : maxN < proxy e.1
      · have hstep : dumpPachStep maxN (ar, out) e = (ar, out) := by
          unfold dumpPachStep
          rw [if_pos hskip]
        rw [hstep]
        obtain ⟨hW, hout⟩ := ih ar out hWF
          (fun x hx => hrange x (List.mem_cons_of_mem e hx))
        refine ⟨hW, ?_⟩
        rw [hout, List.filter_cons]
        rw [if_neg (by
          simp only [Bool.and_eq_true, decide_eq_true_eq, beq_iff_eq]
          exact fun h => (not_le.2 hskip) h.1)]
      · have hsm : ((((root ar e.2).1.get? (root ar e.2).2).map
            Data.smallest).getD 0) =
              (((ar.get? (rootD ar e.2)).map Data.smallest).getD 0) := by
          rw [hr2]
          have h1 := smallestAt_of_fields hfld1 (rootD ar e.2)
          rw [smallestAt, smallestAt] at h1
          rw [h1]
        by_cases hkeep :
            (((ar.get? (rootD ar e.2)).map Data.smallest).getD 0) = maxN
        · have hstep : dumpPachStep maxN (ar, out) e =
              ((root (root ar e.2).1 e.2).1,
               out ++ [((((root (root ar e.2).1 e.2).1.get?
                  (root (root ar e.2).1 e.2).2).map Data.sig).getD "", e.1)]) := by
            unfold dumpPachStep
            rw [if_neg hskip]
            dsimp only
            rw [if_pos (by rw [hsm]; exact hkeep)]
          rw [hstep]
          obtain ⟨hr2b, hWF2, hroots2, hlen2, hfld2⟩ :=
            root_preserves (root ar e.2).1 hWF1 e.2
          have hrange2 : ∀ x ∈ L, x.2 < (root (root ar e.2).1 e.2).1.length := by
            intro x hx
            rw [hlen2, hlen1]
            exact hrange x (List.mem_cons_of_mem e hx)
          obtain ⟨hW, hout⟩ := ih (root (root ar e.2).1 e.2).1 _ hWF2 hrange2
          refine ⟨hW, ?_⟩
          rw [hout]
          have hroots12 : ∀ j, rootD (root (root ar e.2).1 e.2).1 j =
              rootD ar j := by
            intro j
            rw [hroots2 j, hroots1 j]
          have hsig2 : ∀ j, ((((root (root ar e.2).1 e.2).1.get? j).map
              Data.sig).getD "") = (((ar.get? j).map Data.sig).getD "") := by
            intro j
            have h2 := sigO_of_fields hfld2 j
            have h1 := sigO_of_fields hfld1 j
            rw [sigO, sigO] at h2 h1
            rw [h2, h1]
          have hsm2 : ∀ j, ((((root (root ar e.2).1 e.2).1.get? j).map
              Data.smallest).getD 0) =
                (((ar.get? j).map Data.smallest).getD 0) := by
            intro j
            have h2 := smallestAt_of_fields hfld2 j
            have h1 := smallestAt_of_fields hfld1 j
            rw [smallestAt, smallestAt] at h2 h1
            rw [h2, h1]
          have hfilter : L.filter (fun x => decide (proxy x.1 ≤ maxN) &&
              ((((root (root ar e.2).1 e.2).1.get?
                (rootD (root (root ar e.2).1 e.2).1 x.2)).map
                  Data.smallest).getD 0 == maxN)) =
              L.filter (fun x => decide (proxy x.1 ≤ maxN) &&
                (((ar.get? (rootD ar x.2)).map Data.smallest).getD 0 == maxN)) :=
            List.filter_congr (fun x _ => by rw [hroots12 x.2, hsm2])
          have hmapf : (fun x : String × Nat =>
              (((((root (root ar e.2).1 e.2).1.get?
                (rootD (root (root ar e.2).1 e.2).1 x.2)).map
                  Data.sig).getD ""), x.1)) =
              (fun x : String × Nat =>
                ((((ar.get? (rootD ar x.2)).map Data.sig).getD ""), x.1)) :=
            funext fun x => by rw [hroots12 x.2, hsig2]
          have hrootsig : ((((root (root ar e.2).1 e.2).1.get?
              (root (root ar e.2).1 e.2).2).map Data.sig).getD "") =
              (((ar.get? (rootD ar e.2)).map Data.sig).getD "") := by
            rw [hr2b, hroots1 e.2, hsig2]
          rw [hfilter, hmapf, hrootsig, List.filter_cons,
            if_pos (by
              simp only [Bool.and_eq_true, decide_eq_true_eq, beq_iff_eq]
              exact ⟨not_lt.1 hskip, hkeep⟩), List.map_cons,
            List.append_assoc, List.singleton_append]
        · have hstep : dumpPachStep maxN (ar, out) e = ((root ar e.2).1, out) := by
            unfold dumpPachStep
            rw [if_neg hskip]
            dsimp only
            rw [if_neg (by rw [hsm]; exact hkeep)]
          rw [hstep]
          have hrange1 : ∀ x ∈ L, x.2 < (root ar e.2).1.length := by
            intro x hx
            rw [hlen1]
            exact hrange x (List.mem_cons_of_mem e hx)
          obtain ⟨hW, hout⟩ := ih (root ar e.2).1 out hWF1 hrange1
          refine ⟨hW, ?_⟩
          rw [hout]
          have hsig1 : ∀ j, ((((root ar e.2).1.get? j).map Data.sig).getD "") =
              (((ar.get? j).map Data.sig).getD "") := by
            intro j
            have h1 := sigO_of_fields hfld1 j
            rw [sigO, sigO] at h1
            rw [h1]
          have hsm1 : ∀ j, ((((root ar e.2).1.get? j).map
              Data.smallest).getD 0) =
                (((ar.get? j).map Data.smallest).getD 0) := by
            intro j
            have h1 := smallestAt_of_fields hfld1 j
            rw [smallestAt, smallestAt] at h1
            rw [h1]
          have hfilter : L.filter (fun x => decide (proxy x.1 ≤ maxN) &&
              ((((root ar e.2).1.get?
                (rootD (root ar e.2).1 x.2)).map Data.smallest).getD 0 == maxN)) =
              L.filter (fun x => decide (proxy x.1 ≤ maxN) &&
                (((ar.get? (rootD ar x.2)).map Data.smallest).getD 0 == maxN)) :=
            List.filter_congr (fun x _ => by rw [hroots1 x.2, hsm1])
          have hmapf : (fun x : String × Nat =>
              (((((root ar e.2).1.get?
                (rootD (root ar e.2).1 x.2)).map Data.sig).getD ""), x.1)) =
              (fun x : String × Nat =>
                ((((ar.get? (rootD ar x.2)).map Data.sig).getD ""), x.1)) :=
            funext fun x => by rw [hroots1 x.2, hsig1]
          rw [hfilter, hmapf, List.filter_cons, if_neg (by
            simp only [Bool.and_eq_true, decide_eq_true_eq, beq_iff_eq]
            exact fun h => hkeep h.2)]

/-- C10: `dump_pachner` writes a signature into the Explorer output exactly
when its complexity proxy is at most the file-wide maximum AND the
`smallest` stored at its class root equals that maximum; classes whose
minimal representative lies strictly below the maximum are omitted
entirely. -/
theorem claim_C10_dump_pachner_filter (g : Graph) (maxN : Int)
    (hWF : WF g.arena)
    (hrange : ∀ e ∈ g.idx, e.2 < g.arena.length)
    (hnd : (g.idx.map Prod.fst).Nodup)
    {s : String} {i : Nat} (hmem : (s, i) ∈ g.idx) :
    s ∈ (dump_pachner g maxN).2.map Prod.snd ↔
      (proxy s ≤ maxN ∧ smallestAt g.arena (rootD g.arena i) = some maxN) := by
  have hperm := sortByKey_perm g.idx
  have hrange' : ∀ e ∈ sortByKey g.idx, e.2 < g.arena.length :=
    fun e he => hrange e (hperm.mem_iff.1 he)
  have hnd' : ((sortByKey g.idx).map Prod.fst).Nodup :=
    ((hperm.map Prod.fst).nodup_iff).2 hnd
  obtain ⟨_, hout⟩ := dumpPach_fold maxN (sortByKey g.idx) g.arena [] hWF hrange'
  have hilt : i < g.arena.length := hrange (s, i) hmem
  have hrlt : rootD g.arena i < g.arena.length := rootD_lt g.arena hWF hilt
  obtain ⟨dr, hdr⟩ : ∃ d, g.arena.get? (rootD g.arena i) = some d := by
    cases hd : g.arena.get? (rootD g.arena i) with
    | none => exact absurd (List.get?_eq_none.1 hd) (not_le.2 hrlt)
    | some d => exact ⟨d, rfl⟩
  unfold dump_pachner
  rw [hout, List.nil_append, List.map_map]
  constructor
  · intro hs
    obtain ⟨e, he, hes⟩ := List.mem_map.1 hs
    have hefil := he
    rw [List.mem_filter] at hefil
    obtain ⟨heL, hep⟩ := hefil
    have hei : e = (s, i) := by
      apply eq_of_fst_eq_of_nodup_keys g.idx hnd (hperm.mem_iff.1 heL) hmem
      exact hes
    rw [hei] at hep
    simp only [Bool.and_eq_true, decide_eq_true_eq, beq_iff_eq] at hep
    refine ⟨hep.1, ?_⟩
    have h2 := hep.2
    rw [hdr] at h2
    simp only [Option.map_some', Option.getD_some] at h2
    rw [smallestAt, hdr]
    simp only [Option.map_some']
    exact congrArg some h2
  · rintro ⟨hprox, hsm⟩
    have hmem' : (s, i) ∈ sortByKey g.idx := hperm.mem_iff.2 hmem
    have hp : (decide (proxy s ≤ maxN) &&
        (((g.arena.get? (rootD g.arena i)).map Data.smallest).getD 0 ==
          maxN)) = true := by
      simp only [Bool.and_eq_true, decide_eq_true_eq, beq_iff_eq]
      refine ⟨hprox, ?_⟩
      rw [smallestAt, hdr] at hsm
      simp only [Option.map_some'] at hsm
      rw [hdr]
      simp only [Option.map_some', Option.getD_some]
      exact Option.some.inj hsm
    refine List.mem_map.2 ⟨(s, i), List.mem_filter.2 ⟨hmem', hp⟩, rfl⟩

theorem claim_C10_witness :
    (WF (⟨initUF ["b"], [("b", 0)]⟩ : Graph).arena) ∧
      ("b" ∈ (dump_pachner ⟨initUF ["b"], [("b", 0)]⟩ 1).2.map Prod.snd ↔
        (proxy "b" ≤ 1 ∧
          smallestAt (⟨initUF ["b"], [("b", 0)]⟩ : Graph).arena
            (rootD (⟨initUF ["b"], [("b", 0)]⟩ : Graph).arena 0) = some 1)) :=
  ⟨WF_initUF ["b"],
    claim_C10_dump_pachner_filter ⟨initUF ["b"], [("b", 0)]⟩ 1
      (WF_initUF ["b"]) (by decide) (by decide) (by decide)⟩

/-! ## The Profile builder and the Partitioner -/

/-- Number of `;` already in a profile string (the field counter of
`Profile::extend`). -/
def countSemis (s : String) : Nat :=
  s.data.countP (fun c => c == ';')

/-- One `Profile::extend(tri)` call: append invariant field number
`countSemis` (whose value the engine supplies) and the trailing `;`. -/
def extend (E : Engine) (sig : String) (p : String) : String :=
  p ++ E.invar sig (countSemis p) ++ ";"

/-- `depth` successive `extend` calls, as in the `partition` loop. -/
def extendN (E : Engine) (depth : Nat) (sig : String) (p : String) : String :=
  (extend E sig)^[depth] p

/-- One output file of the Partitioner: extended-profile header, one line
per connectivity class, and the (possibly empty) pending line. -/
structure OutFile where
  header : String
  listing : List (List String)
  pending : List String
deriving Repr, DecidableEq

/-- `map<K, vector<V>>` with find-or-insert followed by `push_back`. -/
def appendAssoc {β : Type} :
    List (String × List β) → String → β → List (String × List β)
  | [], k, v => [(k, [v])]
  | e :: m, k, v =>
      if e.1 == k then (e.1, e.2 ++ [v]) :: m else e :: appendAssoc m k v

/-- Signature of the (non-compressing) `Data::root()` of node `i`. -/
def rootSig (g : Graph) (i : Nat) : String :=
  ((g.arena.get? (rootD g.arena i)).map Data.sig).getD ""

/-- `void dump_partition(...)`: group every map entry by its root's
signature (iterating the graph map in key order), group the components by
the root's extended profile string (skipping none — `profiles.at` would
throw), and emit one file per extended profile, numbered from 0. -/
def dump_partition (fname : String) (g : Graph)
    (profiles : List (String × String)) (q : List String) :
    List (String × OutFile) :=
  let comps := (sortByKey g.idx).foldl
    (fun m e => appendAssoc m (rootSig g e.2) e.1) []
  let parts := (sortByKey comps).foldl
    (fun m c =>
      match alookup profiles c.1 with
      | some pstr => appendAssoc m pstr c.2
      | none => m) []
  (sortByKey parts).enum.map
    (fun ec => (fname ++ toString ec.1 ++ ".sigs", ⟨ec.2.1, ec.2.2, q⟩))

/-- The profile-building loop of `partition`: for each root signature seen
for the first time, extend the graph's profile `depth` times on the root's
triangulation.  The `profiles` map persists across graphs. -/
def buildProfiles (E : Engine) (depth : Nat) (pstr : String) (g : Graph)
    (profiles0 : List (String × String)) : List (String × String) :=
  (sortByKey g.idx).foldl
    (fun prs e =>
      match alookup prs (rootSig g e.2) with
      | some _ => prs
      | none => prs ++ [(rootSig g e.2, extendN E depth (rootSig g e.2) pstr)])
    profiles0

/-- Processing of one profile-scoped graph inside `partition`: skip graphs
whose component count reads 1; otherwise build the missing profiles and
write this graph's partition files (overwriting files of the same name). -/
def partitionStep (E : Engine) (depth : Nat) (oname : String)
    (rd : ReadState)
    (acc : List (String × OutFile) × List (String × String))
    (e : String × Graph) :
    List (String × OutFile) × List (String × String) :=
  if (alookup rd.nComp e.1).getD 0 == 1 then acc
  else
    let profiles2 := buildProfiles E depth e.1 e.2 acc.2
    let q := (alookup rd.waiting e.1).getD []
    ((dump_partition oname e.2 profiles2 q).foldl
      (fun fs nf => aset fs nf.1 nf.2) acc.1, profiles2)

/-- `void partition(...)`: read the file, then process every profile-scoped
graph; the result maps each output file name to the content last written
to it. -/
def partitionRun (E : Engine) (lines : List String) (depth : Nat)
    (oname : String) : List (String × OutFile) :=
  let rd := readFile E lines
  ((sortByKey rd.graphs).foldl (partitionStep E depth oname rd) ([], [])).1

/-- C7 counterexample: one input file holding two Profile-scoped Graphs
(`#A` with classes {b},{c} and `#B` with classes {d},{e}).  Both calls to
`dump_partition` use the same name prefix and restart their file counter at
0, so the second graph's `o0.sigs` overwrites the first's: signature `b`
was a Node of the processed graph `#A` yet appears in no surviving output
file. -/
theorem claim_C7_counterexample :
    partitionRun neverSimpleEngine ["#A", "b", "c", "#B", "d", "e"] 0 "o" =
        [("o0.sigs", ⟨"#B", [["d"], ["e"]], []⟩)] ∧
      (alookup (readFile neverSimpleEngine
          ["#A", "b", "c", "#B", "d", "e"]).graphs "#A").map
        (fun g => g.idx.map Prod.fst) = some ["b", "c"] ∧
      (alookup (readFile neverSimpleEngine
          ["#A", "b", "c", "#B", "d", "e"]).nComp "#A") = some 2 := by
  decide

/-! Generic lemmas about `appendAssoc` buckets. -/

theorem alookup_appendAssoc_self {β : Type} (m : List (String × List β))
    (k : String) (v : β) :
    alookup (appendAssoc m k v) k = some ((alookup m k).getD [] ++ [v]) := by
  induction m with
  | nil => simp [appendAssoc, alookup]
  | cons e m ih =>
      by_cases he : e.1 = k
      · simp [appendAssoc, alookup, he]
      · simp only [appendAssoc, beq_iff_eq, if_neg he, alookup]
        exact ih

theorem alookup_appendAssoc_ne {β : Type} (m : List (String × List β))
    {k k' : String} (v : β) (hne : k' ≠ k) :
    alookup (appendAssoc m k v) k' = alookup m k' := by
  induction m with
  | nil =>
      simp only [appendAssoc, alookup, beq_iff_eq]
      rw [if_neg (fun h : k = k' => hne h.symm)]
  | cons e m ih =>
      simp only [appendAssoc, beq_iff_eq]
      by_cases he : e.1 = k
      · rw [if_pos he]
        simp only [alookup, beq_iff_eq]
        rw [if_neg (by rw [he]; exact fun h : k = k' => hne h.symm),
          if_neg (by rw [he]; exact fun h : k = k' => hne h.symm)]
      · rw [if_neg he]
        simp only [alookup, beq_iff_eq]
        by_cases he' : e.1 = k'
        · rw [if_pos he', if_pos he']
        · rw [if_neg he', if_neg he', ih]

theorem alookup_none_iff_not_mem_keys {β : Type} (m : List (String × β))
    (k : String) : alookup m k = none ↔ k ∉ m.map Prod.fst := by
  induction m with
  | nil => simp [alookup]
  | cons e m ih =>
      simp only [alookup, beq_iff_eq, List.map_cons, List.mem_cons]
      by_cases he : e.1 = k
      · simp [he]
      · rw [if_neg he]
        rw [ih]
        constructor
        · intro h hk
          rcases hk with hk | hk
          · exact he hk.symm
          · exact h hk
        · intro h hk
          exact h (Or.inr hk)

theorem keys_appendAssoc_nodup {β : Type} (m : List (String × List β))
    (k : String) (v : β) (hnd : (m.map Prod.fst).Nodup) :
    ((appendAssoc m k v).map Prod.fst).Nodup := by
  induction m with
  | nil => simp [appendAssoc]
  | cons e m ih =>
      simp only [List.map_cons, List.nodup_cons] at hnd
      simp only [appendAssoc, beq_iff_eq]
      by_cases he : e.1 = k
      · rw [if_pos he]
        simp only [List.map_cons, List.nodup_cons]
        exact hnd
      · rw [if_neg he]
        simp only [List.map_cons, List.nodup_cons]
        refine ⟨?_, ih hnd.2⟩
        intro hcon
        have hkeys : ∀ x, x ∈ (appendAssoc m k v).map Prod.fst →
            x ∈ m.map Prod.fst ∨ x = k := by
          intro x hx
          by_cases hxk : x = k
          · exact Or.inr hxk
          · left
            obtain ⟨p, hp, hpx⟩ := List.mem_map.1 hx
            have : alookup (appendAssoc m k v) x ≠ none := by
              intro hnone
              rw [alookup_none_iff_not_mem_keys] at hnone
              exact hnone hx
            rw [alookup_appendAssoc_ne m v hxk] at this
            by_contra hnm
            rw [← alookup_none_iff_not_mem_keys] at hnm
            exact this hnm
        rcases hkeys e.1 hcon with h | h
        · exact hnd.1 h
        · exact he h

theorem mem_iff_alookup {β : Type} :
    ∀ (m : List (String × β)), (m.map Prod.fst).Nodup →
      ∀ (a : String × β), a ∈ m ↔ alookup m a.1 = some a.2 := by
  intro m
  induction m with
  | nil => intro _ a; simp [alookup]
  | cons e m ih =>
      intro hnd a
      simp only [List.map_cons, List.nodup_cons] at hnd
      simp only [List.mem_cons, alookup, beq_iff_eq]
      by_cases he : e.1 = a.1
      · rw [if_pos he]
        constructor
        · rintro (rfl | ha)
          · rfl
          · exact absurd (he ▸ List.mem_map_of_mem Prod.fst ha) hnd.1
        · intro hsome
          left
          have h2 : e.2 = a.2 := Option.some.inj hsome
          calc a = (a.1, a.2) := rfl
            _ = (e.1, e.2) := by rw [he, h2]
            _ = e := rfl
      · rw [if_neg he]
        rw [ih hnd.2 a]
        constructor
        · rintro (rfl | h)
          · exact absurd rfl he
          · exact h
        · exact fun h => Or.inr h

/-- Total weight of all bucket contents of a map-of-vectors. -/
def totW {β : Type} (w : β → Nat) (m : List (String × List β)) : Nat :=
  (m.map (fun b => (b.2.map w).sum)).sum

theorem count_eq_sum_map {α : Type} [DecidableEq α] (l : List α) (a : α) :
    l.count a = (l.map (fun t => if t = a then 1 else 0)).sum := by
  induction l with
  | nil => simp
  | cons x l ih =>
      rw [List.count_cons, ih, List.map_cons, List.sum_cons]
      by_cases hx : x = a
      · simp [hx]
        omega
      · simp [hx, fun h : a = x => hx h.symm]

theorem totW_appendAssoc {β : Type} (w : β → Nat)
    (m : List (String × List β)) (k : String) (v : β) :
    totW w (appendAssoc m k v) = totW w m + w v := by
  induction m with
  | nil => simp [appendAssoc, totW]
  | cons e m ih =>
      simp only [appendAssoc, beq_iff_eq]
      by_cases he : e.1 = k
      · rw [if_pos he]
        simp only [totW, List.map_cons, List.sum_cons, List.map_append,
          List.sum_append, List.map_cons, List.sum_cons, List.map_nil,
          List.sum_nil]
        omega
      · rw [if_neg he]
        simp only [totW, List.map_cons, List.sum_cons] at ih ⊢
        omega

section BucketFold

variable {α β : Type} (key : α → String) (val : α → β)

theorem bucket_fold_totW (w : β → Nat) :
    ∀ (L : List α) (m : List (String × List β)),
      totW w (L.foldl (fun m e => appendAssoc m (key e) (val e)) m) =
        totW w m + (L.map (fun e => w (val e))).sum := by
  intro L
  induction L with
  | nil => intro m; simp
  | cons e L ih =>
      intro m
      rw [List.foldl_cons, ih, totW_appendAssoc, List.map_cons, List.sum_cons]
      omega

theorem bucket_fold_mem :
    ∀ (L : List α) (m : List (String × List β)) (k : String) (x : β),
      x ∈ (alookup (L.foldl (fun m e => appendAssoc m (key e) (val e)) m)
          k).getD [] ↔
        (x ∈ (alookup m k).getD [] ∨ ∃ e ∈ L, key e = k ∧ val e = x) := by
  intro L
  induction L with
  | nil => intro m k x; simp
  | cons e L ih =>
      intro m k x
      rw [List.foldl_cons, ih]
      by_cases hk : key e = k
      · rw [← hk, alookup_appendAssoc_self]
        simp only [Option.getD_some, List.mem_append, List.mem_singleton,
          List.mem_cons, List.not_mem_nil, or_false]
        constructor
        · rintro ((h | rfl) | h)
          · exact Or.inl h
          · exact Or.inr ⟨e, Or.inl rfl, rfl, rfl⟩
          · obtain ⟨e', he', hk', hv'⟩ := h
            exact Or.inr ⟨e', Or.inr he', hk', hv'⟩
        · rintro (h | ⟨e', he', hk', hv'⟩)
          · exact Or.inl (Or.inl h)
          · rcases he' with rfl | he'
            · exact Or.inl (Or.inr hv'.symm)
            · exact Or.inr ⟨e', he', hk', hv'⟩
      · rw [alookup_appendAssoc_ne _ _ (fun h => hk h.symm)]
        constructor
        · rintro (h | ⟨e', he', hk', hv'⟩)
          · exact Or.inl h
          · exact Or.inr ⟨e', List.mem_cons_of_mem e he', hk', hv'⟩
        · rintro (h | ⟨e', he', hk', hv'⟩)
          · exact Or.inl h
          · rcases List.mem_cons.1 he' with rfl | he''
            · exact absurd hk' hk
            · exact Or.inr ⟨e', he'', hk', hv'⟩

theorem bucket_fold_keys :
    ∀ (L : List α) (m : List (String × List β)) (k : String),
      (alookup (L.foldl (fun m e => appendAssoc m (key e) (val e)) m)
          k).isSome = true →
        ((alookup m k).isSome = true ∨ ∃ e ∈ L, key e = k) := by
  intro L
  induction L with
  | nil => intro m k h; exact Or.inl h
  | cons e L ih =>
      intro m k h
      rw [List.foldl_cons] at h
      rcases ih _ k h with h' | ⟨e', he', hk'⟩
      · by_cases hk : key e = k
        · exact Or.inr ⟨e, List.mem_cons_self e L, hk⟩
        · rw [alookup_appendAssoc_ne _ _ (fun h => hk h.symm)] at h'
          exact Or.inl h'
      · exact Or.inr ⟨e', List.mem_cons_of_mem e he', hk'⟩

theorem bucket_fold_nodup :
    ∀ (L : List α) (m : List (String × List β)),
      (m.map Prod.fst).Nodup →
      (((L.foldl (fun m e => appendAssoc m (key e) (val e)) m)).map
        Prod.fst).Nodup := by
  intro L
  induction L with
  | nil => intro m h; exact h
  | cons e L ih =>
      intro m h
      rw [List.foldl_cons]
      exact ih _ (keys_appendAssoc_nodup m (key e) (val e) h)

end BucketFold

/-- A signature occurs in some component line of bucket `P`. -/
def sInBucket (m : List (String × List (List String))) (P s : String) :
    Prop :=
  ∃ comp ∈ (alookup m P).getD [], s ∈ comp

section PartsFold

variable (profiles : List (String × String))

theorem parts_fold_totW (w : List String → Nat) :
    ∀ (C : List (String × List String))
      (m : List (String × List (List String))),
      (∀ c ∈ C, (alookup profiles c.1).isSome = true) →
      totW w (C.foldl (fun m c =>
          match alookup profiles c.1 with
          | some pstr => appendAssoc m pstr c.2
          | none => m) m) =
        totW w m + (C.map (fun c => w c.2)).sum := by
  intro C
  induction C with
  | nil => intro m _; simp
  | cons c C ih =>
      intro m hcov
      rw [List.foldl_cons]
      obtain ⟨p, hp⟩ : ∃ p, alookup profiles c.1 = some p := by
        have := hcov c (List.mem_cons_self c C)
        cases hl : alookup profiles c.1 with
        | none => rw [hl] at this; exact Bool.noConfusion this
        | some p => exact ⟨p, rfl⟩
      rw [hp]
      rw [ih _ (fun x hx => hcov x (List.mem_cons_of_mem c hx)),
        totW_appendAssoc, List.map_cons, List.sum_cons]
      omega

theorem parts_fold_sInBucket :
    ∀ (C : List (String × List String))
      (m : List (String × List (List String))) (P s : String),
      (∀ c ∈ C, (alookup profiles c.1).isSome = true) →
      (sInBucket (C.foldl (fun m c =>
          match alookup profiles c.1 with
          | some pstr => appendAssoc m pstr c.2
          | none => m) m) P s ↔
        (sInBucket m P s ∨
          ∃ c ∈ C, alookup profiles c.1 = some P ∧ s ∈ c.2)) := by
  intro C
  induction C with
  | nil => intro m P s _; simp [sInBucket]
  | cons c C ih =>
      intro m P s hcov
      rw [List.foldl_cons]
      obtain ⟨p, hp⟩ : ∃ p, alookup profiles c.1 = some p := by
        have := hcov c (List.mem_cons_self c C)
        cases hl : alookup profiles c.1 with
        | none => rw [hl] at this; exact Bool.noConfusion this
        | some p => exact ⟨p, rfl⟩
      rw [hp]
      rw [ih _ P s (fun x hx => hcov x (List.mem_cons_of_mem c hx))]
      by_cases hPp : p = P
      · subst hPp
        unfold sInBucket
        rw [alookup_appendAssoc_self]
        simp only [Option.getD_some]
        constructor
        · rintro (⟨comp, hcomp, hs⟩ | ⟨c', hc', hk', hs'⟩)
          · rcases List.mem_append.1 hcomp with h | h
            · exact Or.inl ⟨comp, h, hs⟩
            · rw [List.mem_singleton.1 h] at hs
              exact Or.inr ⟨c, List.mem_cons_self c C, hp, hs⟩
          · exact Or.inr ⟨c', List.mem_cons_of_mem c hc', hk', hs'⟩
        · rintro (⟨comp, hcomp, hs⟩ | ⟨c', hc', hk', hs'⟩)
          · exact Or.inl ⟨comp, List.mem_append_left _ hcomp, hs⟩
          · rcases List.mem_cons.1 hc' with rfl | hc''
            · refine Or.inl ⟨c'.2, List.mem_append_right _ ?_, hs'⟩
              exact List.mem_singleton.2 rfl
            · exact Or.inr ⟨c', hc'', hk', hs'⟩
      · unfold sInBucket
        rw [alookup_appendAssoc_ne _ _ (fun h => hPp h.symm)]
        constructor
        · rintro (h | ⟨c', hc', hk', hs'⟩)
          · exact Or.inl h
          · exact Or.inr ⟨c', List.mem_cons_of_mem c hc', hk', hs'⟩
        · rintro (h | ⟨c', hc', hk', hs'⟩)
          · exact Or.inl h
          · rcases List.mem_cons.1 hc' with rfl | hc''
            · rw [hp] at hk'
              exact absurd (Option.some.inj hk') hPp
            · exact Or.inr ⟨c', hc'', hk', hs'⟩

theorem parts_fold_nodup :
    ∀ (C : List (String × List String))
      (m : List (String × List (List String))),
      (m.map Prod.fst).Nodup →
      ((C.foldl (fun m c =>
          match alookup profiles c.1 with
          | some pstr => appendAssoc m pstr c.2
          | none => m) m).map Prod.fst).Nodup := by
  intro C
  induction C with
  | nil => intro m h; exact h
  | cons c C ih =>
      intro m h
      rw [List.foldl_cons]
      cases alookup profiles c.1 with
      | none => exact ih m h
      | some p => exact ih _ (keys_appendAssoc_nodup m p c.2 h)

end PartsFold

/-- C7 (corrected, per `dump_partition` call): for a single Graph, every
signature in its map appears exactly once across the output files'
listings, and two signatures land in a common output file exactly when
their class roots carry identical extended Profile strings.  (Across
several Graphs of one input file the counter restarts and files overwrite —
see the counterexample.) -/
theorem claim_C7_partition_per_graph (fname : String) (g : Graph)
    (profiles : List (String × String)) (q : List String)
    (hnd : (g.idx.map Prod.fst).Nodup)
    (hcov : ∀ e ∈ g.idx, (alookup profiles (rootSig g e.2)).isSome = true) :
    (∀ s, s ∈ g.idx.map Prod.fst →
      ((dump_partition fname g profiles q).map
        (fun f => (f.2.listing.map (fun comp => comp.count s)).sum)).sum = 1) ∧
    (∀ s1 i1 s2 i2, (s1, i1) ∈ g.idx → (s2, i2) ∈ g.idx →
      ((∃ f ∈ dump_partition fname g profiles q,
          (∃ c1 ∈ f.2.listing, s1 ∈ c1) ∧ (∃ c2 ∈ f.2.listing, s2 ∈ c2)) ↔
        alookup profiles (rootSig g i1) = alookup profiles (rootSig g i2))) := by
  have hLperm : (sortByKey g.idx).Perm g.idx := sortByKey_perm g.idx
  have hcomps_nd : (((sortByKey g.idx).foldl
      (fun m e => appendAssoc m (rootSig g e.2) e.1)
      ([] : List (String × List String))).map Prod.fst).Nodup :=
    bucket_fold_nodup _ _ _ [] (by simp)
  set comps := (sortByKey g.idx).foldl
    (fun m e => appendAssoc m (rootSig g e.2) e.1)
    ([] : List (String × List String)) with hcomps
  have hcov' : ∀ c ∈ sortByKey comps, (alookup profiles c.1).isSome = true := by
    intro c hc
    have hcm : c ∈ comps := (sortByKey_perm comps).mem_iff.1 hc
    have hlook : alookup comps c.1 = some c.2 :=
      (mem_iff_alookup comps hcomps_nd c).1 hcm
    have hks := bucket_fold_keys (fun e : String × Nat => rootSig g e.2)
      (fun e : String × Nat => e.1) (sortByKey g.idx) [] c.1
      (by rw [← hcomps, hlook]; rfl)
    rcases hks with hk | ⟨e, he, hke⟩
    · simp [alookup] at hk
    · rw [← hke]
      exact hcov e (hLperm.mem_iff.1 he)
  set parts := (sortByKey comps).foldl
    (fun m c =>
      match alookup profiles c.1 with
      | some pstr => appendAssoc m pstr c.2
      | none => m) ([] : List (String × List (List String))) with hparts
  have hparts_nd : (parts.map Prod.fst).Nodup := by
    rw [hparts]
    exact parts_fold_nodup profiles (sortByKey comps) [] (by simp)
  have hdp : dump_partition fname g profiles q =
      (sortByKey parts).enum.map
        (fun ec => (fname ++ toString ec.1 ++ ".sigs",
          (⟨ec.2.1, ec.2.2, q⟩ : OutFile))) := rfl
  -- membership of a signature in a parts bucket ↔ its root's profile
  have hbucket : ∀ (s : String) (i : Nat), (s, i) ∈ g.idx → ∀ P,
      (sInBucket parts P s ↔ alookup profiles (rootSig g i) = some P) := by
    intro s i hmem P
    rw [hparts]
    rw [parts_fold_sInBucket profiles (sortByKey comps) [] P s hcov']
    have hnil : ¬ sInBucket [] P s := by
      rintro ⟨comp, hcomp, _⟩
      simp [alookup] at hcomp
    constructor
    · rintro (h | ⟨c, hcC, hcp, hs⟩)
      · exact absurd h hnil
      · have hcm : c ∈ comps := (sortByKey_perm comps).mem_iff.1 hcC
        have hlook : alookup comps c.1 = some c.2 :=
          (mem_iff_alookup comps hcomps_nd c).1 hcm
        have hs' : s ∈ (alookup comps c.1).getD [] := by
          rw [hlook]
          exact hs
        rw [hcomps] at hs'
        rw [bucket_fold_mem (fun e : String × Nat => rootSig g e.2)
          (fun e : String × Nat => e.1) (sortByKey g.idx) [] c.1 s] at hs'
        rcases hs' with h0 | ⟨e, he, hre, hve⟩
        · simp [alookup] at h0
        · have hei : e = (s, i) :=
            eq_of_fst_eq_of_nodup_keys g.idx hnd (hLperm.mem_iff.1 he) hmem hve
          rw [hei] at hre
          rw [← hre] at hcp
          exact hcp
    · intro hP
      right
      have hsmem : s ∈ (alookup comps (rootSig g i)).getD [] := by
        rw [hcomps]
        rw [bucket_fold_mem (fun e : String × Nat => rootSig g e.2)
          (fun e : String × Nat => e.1) (sortByKey g.idx) [] (rootSig g i) s]
        exact Or.inr ⟨(s, i), hLperm.mem_iff.2 hmem, rfl, rfl⟩
      obtain ⟨B, hB⟩ : ∃ B, alookup comps (rootSig g i) = some B := by
        cases hl : alookup comps (rootSig g i) with
        | none =>
            rw [hl] at hsmem
            simp at hsmem
        | some B => exact ⟨B, rfl⟩
      refine ⟨(rootSig g i, B), ?_, hP, ?_⟩
      · exact (sortByKey_perm comps).mem_iff.2
          ((mem_iff_alookup comps hcomps_nd _).2 hB)
      · rw [hB] at hsmem
        exact hsmem
  constructor
  · -- every signature appears exactly once across the files' listings
    intro s hs
    rw [hdp, List.map_map]
    have henum : ((sortByKey parts).enum.map
        ((fun f : String × OutFile =>
          (f.2.listing.map (fun comp => comp.count s)).sum) ∘
          (fun ec : Nat × (String × List (List String)) =>
            (fname ++ toString ec.1 ++ ".sigs",
              (⟨ec.2.1, ec.2.2, q⟩ : OutFile))))) =
        (sortByKey parts).map
          (fun pr => (pr.2.map (fun comp => comp.count s)).sum) := by
      have hcomp : ((fun f : String × OutFile =>
          (f.2.listing.map (fun comp => comp.count s)).sum) ∘
          (fun ec : Nat × (String × List (List String)) =>
            (fname ++ toString ec.1 ++ ".sigs",
              (⟨ec.2.1, ec.2.2, q⟩ : OutFile)))) =
          ((fun pr : String × List (List String) =>
            (pr.2.map (fun comp => comp.count s)).sum) ∘ Prod.snd) := rfl
      rw [hcomp, ← List.map_map, List.enum_map_snd]
    rw [henum]
    have hsum1 : ((sortByKey parts).map
        (fun pr => (pr.2.map (fun comp => comp.count s)).sum)).sum =
        totW (fun comp => comp.count s) parts :=
      ((sortByKey_perm parts).map _).sum_eq
    rw [hsum1, hparts,
      parts_fold_totW profiles (fun comp => comp.count s)
        (sortByKey comps) [] hcov']
    have htot0 : totW (fun comp : List String => comp.count s)
        ([] : List (String × List (List String))) = 0 := rfl
    rw [htot0, Nat.zero_add]
    have hcc : ((sortByKey comps).map (fun c => c.2.count s)).sum =
        totW (fun t => if t = s then 1 else 0) (sortByKey comps) := by
      unfold totW
      rw [show (fun c : String × List String => c.2.count s) =
          (fun b : String × List String =>
            (b.2.map (fun t => if t = s then 1 else 0)).sum) from
        funext fun c => count_eq_sum_map c.2 s]
    rw [hcc]
    have hcc2 : totW (fun t => if t = s then 1 else 0) (sortByKey comps) =
        totW (fun t => if t = s then 1 else 0) comps :=
      ((sortByKey_perm comps).map _).sum_eq
    rw [hcc2, hcomps,
      bucket_fold_totW (fun e : String × Nat => rootSig g e.2)
        (fun e : String × Nat => e.1) (fun t => if t = s then 1 else 0)
        (sortByKey g.idx) []]
    have htot0' : totW (fun t : String => if t = s then 1 else 0)
        ([] : List (String × List String)) = 0 := rfl
    rw [htot0', Nat.zero_add]
    have hfin : ((sortByKey g.idx).map
        (fun e => if e.1 = s then 1 else 0)).sum =
        ((sortByKey g.idx).map Prod.fst).count s := by
      rw [count_eq_sum_map, List.map_map]
      rfl
    rw [hfin]
    rw [(hLperm.map Prod.fst).count_eq]
    exact List.count_eq_one_of_mem hnd hs
  · -- same file ↔ identical extended profile of the roots
    intro s1 i1 s2 i2 h1 h2
    constructor
    · rintro ⟨f, hf, ⟨c1, hc1, hs1⟩, ⟨c2, hc2, hs2⟩⟩
      rw [hdp] at hf
      obtain ⟨ec, hec, hfe⟩ := List.mem_map.1 hf
      have hpr : ec.2 ∈ sortByKey parts := by
        have := (List.mk_mem_enum_iff_get? (l := sortByKey parts)).1
          (by
            have : (ec.1, ec.2) = ec := rfl
            rw [this]
            exact hec)
        exact List.get?_mem this
      have hprm : ec.2 ∈ parts := (sortByKey_perm parts).mem_iff.1 hpr
      have hlook : alookup parts ec.2.1 = some ec.2.2 :=
        (mem_iff_alookup parts hparts_nd ec.2).1 hprm
      have hlist : f.2.listing = ec.2.2 := by
        rw [← hfe]
      have hb1 : sInBucket parts ec.2.1 s1 := by
        refine ⟨c1, ?_, hs1⟩
        rw [hlook]
        rw [hlist] at hc1
        exact hc1
      have hb2 : sInBucket parts ec.2.1 s2 := by
        refine ⟨c2, ?_, hs2⟩
        rw [hlook]
        rw [hlist] at hc2
        exact hc2
      rw [(hbucket s1 i1 h1 ec.2.1).1 hb1, (hbucket s2 i2 h2 ec.2.1).1 hb2]
    · intro heq
      obtain ⟨P, hP1⟩ : ∃ P, alookup profiles (rootSig g i1) = some P := by
        have := hcov (s1, i1) h1
        cases hl : alookup profiles (rootSig g i1) with
        | none => rw [hl] at this; exact Bool.noConfusion this
        | some P => exact ⟨P, rfl⟩
      have hP2 : alookup profiles (rootSig g i2) = some P := by
        rw [← heq]
        exact hP1
      obtain ⟨c1, hc1, hs1⟩ := (hbucket s1 i1 h1 P).2 hP1
      obtain ⟨c2, hc2, hs2⟩ := (hbucket s2 i2 h2 P).2 hP2
      obtain ⟨B, hB⟩ : ∃ B, alookup parts P = some B := by
        cases hl : alookup parts P with
        | none =>
            rw [hl] at hc1
            simp at hc1
        | some B => exact ⟨B, rfl⟩
      rw [hB] at hc1 hc2
      simp only [Option.getD_some] at hc1 hc2
      have hprm : (P, B) ∈ parts :=
        (mem_iff_alookup parts hparts_nd (P, B)).2 hB
      have hprs : (P, B) ∈ sortByKey parts :=
        (sortByKey_perm parts).mem_iff.2 hprm
      obtain ⟨n, hn⟩ := List.mem_iff_get?.1 hprs
      refine ⟨(fname ++ toString n ++ ".sigs", (⟨P, B, q⟩ : OutFile)), ?_,
        ⟨c1, hc1, hs1⟩, ⟨c2, hc2, hs2⟩⟩
      rw [hdp]
      refine List.mem_map.2 ⟨(n, (P, B)), ?_, rfl⟩
      exact (List.mk_mem_enum_iff_get? (l := sortByKey parts)).2 hn

theorem claim_C7_witness :
    ((dump_partition "o" (⟨initUF ["b", "c"], [("b", 0), ("c", 1)]⟩ : Graph)
        [("b", "#A;"), ("c", "#A;")] []).map
      (fun f => (f.2.listing.map (fun comp => comp.count "b")).sum)).sum = 1 :=
  (claim_C7_partition_per_graph "o"
    (⟨initUF ["b", "c"], [("b", 0), ("c", 1)]⟩ : Graph)
    [("b", "#A;"), ("c", "#A;")] [] (by decide) (by decide)).1 "b" (by decide)

end SortCensus
